import Mathlib

/-!
Verification of the hiss database-bridge layer.

The definitions below are shallow embeddings of the Rust sources:
  - types.rs    : value codec (calendar, decimal, literal encoding)
  - row_writer.rs : result-set collector (MultiSetWriter / PyRowWriter)
  - lib.rs      : statement executor (do_query, do_execute, substitute_params)

Machine integers are modelled as ℤ / ℕ. Rust div_euclid / rem_euclid are
Int ediv / emod (the `/` and `%` of ℤ here); truncating i32 division is
Int.tdiv and appears exactly where the source uses it. Rust strings are
modelled as List Char.
-/

set_option maxRecDepth 4000

namespace Hiss

/-! ### Calendar arithmetic (types.rs)

The civil_from_days decomposition appears twice in the source, once inlined
in micros_to_components (types.rs lines 66-76) and once in the
CompactValue Date branch of compact_value_to_py (types.rs lines 109-118);
both copies are identical and are embedded once below as civilFromDays,
with each intermediate value of the source a named definition.
-/

/-- Year-start day offset (March-based) of year y within a 400-year era:
365*y plus one day per leap year before y. Helper for the verification. -/
def gstart (y : ℤ) : ℤ := 365 * y + y / 4 - y / 100

/-- Numerator of the year-of-era computation of the civil algorithm. -/
def gnum (n : ℤ) : ℤ := n - n / 1460 + n / 36524 - n / 146096

theorem gnum_mono_step (n : ℤ) (h0 : 0 ≤ n) (h : n + 1 ≤ 146096) : gnum n ≤ gnum (n + 1) := by
  unfold gnum
  omega

theorem gnum_mono_aux : ∀ k : ℕ, ∀ a b : ℤ, 0 ≤ a → a ≤ b → b ≤ 146096 → b - a = k →
    gnum a ≤ gnum b := by
  intro k
  induction k with
  | zero =>
    intro a b h0 hab hb hk
    have h : a = b := by omega
    rw [h]
  | succ n ih =>
    intro a b h0 hab hb hk
    have h1 : gnum a ≤ gnum (b - 1) := ih a (b - 1) h0 (by omega) (by omega) (by omega)
    have h2 : gnum (b - 1) ≤ gnum (b - 1 + 1) := gnum_mono_step (b - 1) (by omega) (by omega)
    have e : b - 1 + 1 = b := by ring
    rw [e] at h2
    exact le_trans h1 h2

theorem gnum_mono (a b : ℤ) (h0 : 0 ≤ a) (hab : a ≤ b) (hb : b ≤ 146096) :
    gnum a ≤ gnum b :=
  gnum_mono_aux (b - a).toNat a b h0 hab hb (by omega)

/-- Boundary check, low side: just before the start of year y+1 the year
numerator still falls below 365*(y+1). -/
def checkLow (y : Nat) : Bool :=
  decide (gnum (gstart (y + 1) - 1) + 1 ≤ 365 * ((y : ℤ) + 1))

/-- Boundary check, high side: 366 days past the start of year y (when still
inside the era) the year numerator has reached 365*(y+1). -/
def checkHigh (y : Nat) : Bool :=
  decide (146097 ≤ gstart y + 366) || decide (365 * (y : ℤ) + 365 ≤ gnum (gstart y + 366))

theorem checkLow_all : ∀ y, y < 400 → checkLow y = true := by decide

theorem checkHigh_all : ∀ y, y < 400 → checkHigh y = true := by decide

theorem gnum_top : gnum 146096 = 145999 := by decide

theorem gstart_le (y : ℤ) (h0 : 0 ≤ y) (h : y ≤ 400) : gstart y ≤ 146096 := by
  unfold gstart
  omega

theorem gstart_nonneg (y : ℤ) (h0 : 0 ≤ y) : 0 ≤ gstart y := by
  unfold gstart
  omega

/-- For day-of-era in range, the year-of-era computed by the civil algorithm
satisfies the year-start bracketing bounds. -/
theorem yoe_bounds (doe : ℤ) (h0 : 0 ≤ doe) (h1 : doe ≤ 146096) :
    0 ≤ gnum doe / 365 ∧ gnum doe / 365 ≤ 399 ∧
    gstart (gnum doe / 365) ≤ doe ∧ doe ≤ gstart (gnum doe / 365) + 365 := by
  have hnn : 0 ≤ gnum doe := by unfold gnum; omega
  have hm : gnum doe ≤ gnum 146096 := gnum_mono doe 146096 h0 h1 (by omega)
  rw [gnum_top] at hm
  have hy0 : 0 ≤ gnum doe / 365 := by omega
  have hy : gnum doe / 365 ≤ 399 := by omega
  refine ⟨hy0, hy, ?_, ?_⟩
  · rcases eq_or_lt_of_le hy0 with h0' | hpos
    · rw [← h0']
      simpa [gstart] using h0
    · by_contra hlt
      push_neg at hlt
      have hc := checkLow_all (gnum doe / 365 - 1).toNat (by omega)
      simp only [checkLow, decide_eq_true_eq] at hc
      have hcast : ((gnum doe / 365 - 1).toNat : ℤ) + 1 = gnum doe / 365 := by omega
      rw [hcast] at hc
      have hle : gstart (gnum doe / 365) ≤ 146096 := gstart_le _ (by omega) (by omega)
      have hsn : 0 ≤ gstart (gnum doe / 365) := gstart_nonneg _ (by omega)
      have hmono : gnum doe ≤ gnum (gstart (gnum doe / 365) - 1) :=
        gnum_mono _ _ h0 (by omega) (by omega)
      omega
  · by_contra h2
    push_neg at h2
    have hc := checkHigh_all (gnum doe / 365).toNat (by omega)
    simp only [checkHigh, decide_eq_true_eq, Bool.or_eq_true] at hc
    have hcast : ((gnum doe / 365).toNat : ℤ) = gnum doe / 365 := by omega
    rw [hcast] at hc
    have hmono : gnum (gstart (gnum doe / 365) + 366) ≤ gnum doe :=
      gnum_mono _ _ (by have := gstart_nonneg (gnum doe / 365) hy0; omega) (by omega) h1
    omega

/-- A calendar date as produced by the decoder. -/
structure Ymd where
  year : ℤ
  month : ℤ
  day : ℤ
deriving DecidableEq, Repr

/-- Shifted day count: days = unix_days + 719468 (types.rs line 109 / 67). -/
def cfdDays (z : ℤ) : ℤ := z + 719468

/-- Era computation with the truncating-division trick of the source
(types.rs line 110 / 68); Rust i32 division truncates, hence Int.tdiv. -/
def cfdEra (z : ℤ) : ℤ :=
  if 0 ≤ cfdDays z then (cfdDays z).tdiv 146097 else (cfdDays z - 146096).tdiv 146097

/-- Day of era (types.rs line 111 / 69). -/
def cfdDoe (z : ℤ) : ℤ := cfdDays z - cfdEra z * 146097

/-- Year of era (types.rs line 112 / 70); the operands are u32, nonnegative. -/
def cfdYoe (z : ℤ) : ℤ :=
  (cfdDoe z - cfdDoe z / 1460 + cfdDoe z / 36524 - cfdDoe z / 146096) / 365

/-- Un-bumped year (types.rs line 113 / 71). -/
def cfdY (z : ℤ) : ℤ := cfdYoe z + cfdEra z * 400

/-- Day of year, March-based (types.rs line 114 / 72). -/
def cfdDoy (z : ℤ) : ℤ := cfdDoe z - (365 * cfdYoe z + cfdYoe z / 4 - cfdYoe z / 100)

/-- Month index before remapping (types.rs line 115 / 73). -/
def cfdMp (z : ℤ) : ℤ := (5 * cfdDoy z + 2) / 153

/-- Day of month (types.rs line 116 / 74). -/
def cfdD (z : ℤ) : ℤ := cfdDoy z - (153 * cfdMp z + 2) / 5 + 1

/-- Month after the March-based remap (types.rs line 117 / 75). -/
def cfdM (z : ℤ) : ℤ := if cfdMp z < 10 then cfdMp z + 3 else cfdMp z - 9

/-- Full date decoding of a days-since-epoch count, as implemented by the
CompactValue Date branch of compact_value_to_py and by micros_to_components:
the year is bumped by one exactly when the resulting month is at most 2
(types.rs line 118 / 76). -/
def civilFromDays (z : ℤ) : Ymd :=
  ⟨if cfdM z ≤ 2 then cfdY z + 1 else cfdY z, cfdM z, cfdD z⟩

/-- Date decoding as worded by the specification sentence for claim C1, which
asks for the year to be bumped by one when the resulting month is at most 3.
Second definition kept for the refinement comparison; it differs from
civilFromDays only in that final comparison. -/
def civilFromDaysClaimed (z : ℤ) : Ymd :=
  ⟨if cfdM z ≤ 3 then cfdY z + 1 else cfdY z, cfdM z, cfdD z⟩

/-- Modelled from the spec: the days_from_civil inverse construction named by
the specification (the conventional civil-calendar encoding; no encoder
exists in the source, which only decodes). Year adjusted down for
January/February. -/
def dfcY2 (y m : ℤ) : ℤ := if m ≤ 2 then y - 1 else y

/-- Modelled from the spec: era of the adjusted year. `/` of ℤ is euclidean
division, which is floor division for the positive divisor 400. -/
def dfcEra (y m : ℤ) : ℤ := dfcY2 y m / 400

/-- Modelled from the spec: year of era of the adjusted year. -/
def dfcYoe (y m : ℤ) : ℤ := dfcY2 y m - dfcEra y m * 400

/-- Modelled from the spec: March-based month index. -/
def dfcMp (m : ℤ) : ℤ := if 2 < m then m - 3 else m + 9

/-- Modelled from the spec: day of year from month index and day of month. -/
def dfcDoy (m d : ℤ) : ℤ := (153 * dfcMp m + 2) / 5 + d - 1

/-- Modelled from the spec: day of era. -/
def dfcDoe (y m d : ℤ) : ℤ :=
  dfcYoe y m * 365 + dfcYoe y m / 4 - dfcYoe y m / 100 + dfcDoy m d

/-- Modelled from the spec: days_from_civil, the inverse of the decoder. -/
def days_from_civil (y m d : ℤ) : ℤ :=
  dfcEra y m * 146097 + dfcDoe y m d - 719468

theorem cfdEra_eq (z : ℤ) : cfdEra z = cfdDays z / 146097 := by
  unfold cfdEra
  split
  · exact Int.tdiv_eq_ediv (by assumption) (by norm_num)
  · rename_i h
    rw [show cfdDays z - 146096 = -(146096 - cfdDays z) by ring, Int.neg_tdiv,
      Int.tdiv_eq_ediv (by omega) (by norm_num)]
    omega

theorem cfdDoe_bounds (z : ℤ) : 0 ≤ cfdDoe z ∧ cfdDoe z ≤ 146096 := by
  unfold cfdDoe
  rw [cfdEra_eq]
  omega

/-- Core inversion: days_from_civil applied to the components produced by the
civil decomposition of a day count recovers the day count. -/
theorem dfc_inverse (era doe yoe y doy mp d m Y : ℤ)
    (hdoe0 : 0 ≤ doe) (hdoe1 : doe ≤ 146096)
    (hyoe : yoe = gnum doe / 365)
    (hy : y = yoe + era * 400)
    (hdoy : doy = doe - gstart yoe)
    (hmp : mp = (5 * doy + 2) / 153)
    (hd : d = doy - (153 * mp + 2) / 5 + 1)
    (hm : m = (if mp < 10 then mp + 3 else mp - 9))
    (hY : Y = (if m ≤ 2 then y + 1 else y)) :
    days_from_civil Y m d = era * 146097 + doe - 719468 := by
  have hb := yoe_bounds doe hdoe0 hdoe1
  rw [← hyoe] at hb
  unfold gstart at hdoy hb
  have hdoy0 : 0 ≤ doy := by omega
  have hdoy1 : doy ≤ 365 := by omega
  have hmp1 : mp ≤ 11 := by omega
  have hmp0 : 0 ≤ mp := by omega
  rcases lt_or_ge mp 10 with hc | hc
  · rw [if_pos hc] at hm
    have hm2 : ¬ m ≤ 2 := by omega
    rw [if_neg hm2] at hY
    subst hm
    rw [hY]
    simp only [days_from_civil, dfcDoe, dfcYoe, dfcEra, dfcY2, dfcDoy, dfcMp]
    rw [if_neg (show ¬ mp + 3 ≤ 2 by omega), if_pos (show 2 < mp + 3 by omega)]
    have e1 : mp + 3 - 3 = mp := by ring
    rw [e1]
    have e2 : y / 400 = era := by omega
    rw [e2]
    have e3 : y - era * 400 = yoe := by omega
    rw [e3]
    omega
  · rw [if_neg (by omega : ¬ mp < 10)] at hm
    have hm2 : m ≤ 2 := by omega
    rw [if_pos hm2] at hY
    subst hm
    rw [hY]
    simp only [days_from_civil, dfcDoe, dfcYoe, dfcEra, dfcY2, dfcDoy, dfcMp]
    rw [if_pos (show mp - 9 ≤ 2 by omega), if_neg (show ¬ 2 < mp - 9 by omega)]
    have e0 : y + 1 - 1 = y := by ring
    rw [e0]
    have e1 : mp - 9 + 9 = mp := by ring
    rw [e1]
    have e2 : y / 400 = era := by omega
    rw [e2]
    have e3 : y - era * 400 = yoe := by omega
    rw [e3]
    omega

/-- The date decoder inverts days_from_civil on every day count. -/
theorem civil_roundtrip (z : ℤ) :
    days_from_civil (civilFromDays z).year (civilFromDays z).month (civilFromDays z).day = z := by
  have hdoe := cfdDoe_bounds z
  have h := dfc_inverse (cfdEra z) (cfdDoe z) (cfdYoe z) (cfdY z) (cfdDoy z) (cfdMp z)
    (cfdD z) (cfdM z) (if cfdM z ≤ 2 then cfdY z + 1 else cfdY z)
    hdoe.1 hdoe.2 rfl rfl rfl rfl rfl rfl rfl
  show days_from_civil (if cfdM z ≤ 2 then cfdY z + 1 else cfdY z) (cfdM z) (cfdD z) = z
  rw [h]
  have hera := cfdEra_eq z
  have hdoed : cfdDoe z = cfdDays z - cfdEra z * 146097 := rfl
  have hdaysd : cfdDays z = z + 719468 := rfl
  omega

/-- The month and day produced by the decoder are a valid calendar pair. -/
theorem civil_month_day_bounds (z : ℤ) :
    1 ≤ cfdM z ∧ cfdM z ≤ 12 ∧ 1 ≤ cfdD z ∧ cfdD z ≤ 31 := by
  have hdoe := cfdDoe_bounds z
  have hb := yoe_bounds (cfdDoe z) hdoe.1 hdoe.2
  unfold gstart at hb
  have hlink : cfdYoe z = gnum (cfdDoe z) / 365 := rfl
  have hdoyd : cfdDoy z = cfdDoe z - (365 * cfdYoe z + cfdYoe z / 4 - cfdYoe z / 100) := rfl
  have hmpd : cfdMp z = (5 * cfdDoy z + 2) / 153 := rfl
  have hdd : cfdD z = cfdDoy z - (153 * cfdMp z + 2) / 5 + 1 := rfl
  have hmd : cfdM z = (if cfdMp z < 10 then cfdMp z + 3 else cfdMp z - 9) := rfl
  rcases lt_or_ge (cfdMp z) 10 with hc | hc
  · rw [if_pos hc] at hmd
    omega
  · rw [if_neg (by omega : ¬ cfdMp z < 10)] at hmd
    omega

/-- Claim C1, counterexample: at day count 59 (1970-03-01, month 3) the code
does not bump the year, while the claimed bump-when-month-at-most-3 rule
would make the year 1971; the decode as claimed differs from the code. -/
theorem claimC1_counterexample :
    civilFromDays 59 ≠ civilFromDaysClaimed 59 ∧
    civilFromDays 59 = ⟨1970, 3, 1⟩ ∧ civilFromDaysClaimed 59 = ⟨1971, 3, 1⟩ := by
  decide

/-- Claim C1 (amended): for every day count in the i32-safe range of the
source, decoding follows the civil_from_days algorithm with the 719468 shift
and the 146097/1460/36524/146096/365/153 constants, with the year bumped by
one when the resulting month is at most 2; equivalently the decode is the
exact inverse of days_from_civil and yields a valid month and day. -/
theorem claimC1_date_decode (z : ℤ)
    (hlo : -(2 ^ 31) ≤ z + 719468) (hhi : z + 719468 < 2 ^ 31) :
    days_from_civil (civilFromDays z).year (civilFromDays z).month (civilFromDays z).day = z ∧
    1 ≤ (civilFromDays z).month ∧ (civilFromDays z).month ≤ 12 ∧
    1 ≤ (civilFromDays z).day ∧ (civilFromDays z).day ≤ 31 := by
  have hb := civil_month_day_bounds z
  exact ⟨civil_roundtrip z, hb.1, hb.2.1, hb.2.2.1, hb.2.2.2⟩

theorem claimC1_date_decode_witness :
    (-(2 ^ 31) ≤ (59 : ℤ) + 719468 ∧ (59 : ℤ) + 719468 < 2 ^ 31) ∧
    (days_from_civil (civilFromDays 59).year (civilFromDays 59).month
      (civilFromDays 59).day = 59 ∧
    1 ≤ (civilFromDays 59).month ∧ (civilFromDays 59).month ≤ 12 ∧
    1 ≤ (civilFromDays 59).day ∧ (civilFromDays 59).day ≤ 31) :=
  ⟨⟨by decide, by decide⟩, claimC1_date_decode 59 (by decide) (by decide)⟩

/-! ### Timestamp decoding (types.rs, micros_to_components, lines 58-78) -/

/-- Components of a decoded timestamp. -/
structure DateTimeParts where
  year : ℤ
  month : ℤ
  day : ℤ
  hour : ℤ
  minute : ℤ
  second : ℤ
  micro : ℤ
deriving DecidableEq, Repr

/-- Whole seconds of the timestamp: micros.div_euclid(1_000_000). -/
def mtcTotalSecs (micros : ℤ) : ℤ := micros / 1000000

/-- Sub-second remainder: micros.rem_euclid(1_000_000). -/
def mtcRemMicros (micros : ℤ) : ℤ := micros % 1000000

/-- Second-of-day: total_secs.rem_euclid(86400). -/
def mtcTimeOfDay (micros : ℤ) : ℤ := mtcTotalSecs micros % 86400

/-- Day count: total_secs.div_euclid(86400), before the 719468 shift. -/
def mtcDays (micros : ℤ) : ℤ := mtcTotalSecs micros / 86400

/-- micros_to_components (types.rs lines 58-78): split a signed microsecond
count into calendar and clock components with euclidean division, then run
the civil_from_days decomposition on the day count. -/
def micros_to_components (micros : ℤ) : DateTimeParts :=
  ⟨(civilFromDays (mtcDays micros)).year,
   (civilFromDays (mtcDays micros)).month,
   (civilFromDays (mtcDays micros)).day,
   mtcTimeOfDay micros / 3600,
   mtcTimeOfDay micros % 3600 / 60,
   mtcTimeOfDay micros % 60,
   mtcRemMicros micros⟩

/-- Modelled from the spec: re-encoding of decoded components, written as the
claim words it: days_from_civil of the date, times 86400 seconds, plus the
time of day in seconds, all scaled to microseconds, plus the sub-second
remainder. No encoder exists in the source. -/
def components_to_micros (p : DateTimeParts) : ℤ :=
  (days_from_civil p.year p.month p.day * 86400 +
    p.hour * 3600 + p.minute * 60 + p.second) * 1000000 + p.micro

/-- Claim C6: for every 64-bit signed microsecond timestamp, including
negative pre-epoch values, decoding splits with floor-division semantics and
re-encoding the components yields the original timestamp. -/
theorem claimC6_timestamp_roundtrip (micros : ℤ)
    (hlo : -(2 ^ 63) ≤ micros) (hhi : micros < 2 ^ 63) :
    components_to_micros (micros_to_components micros) = micros := by
  show (days_from_civil (civilFromDays (mtcDays micros)).year
      (civilFromDays (mtcDays micros)).month (civilFromDays (mtcDays micros)).day * 86400 +
      mtcTimeOfDay micros / 3600 * 3600 + mtcTimeOfDay micros % 3600 / 60 * 60 +
      mtcTimeOfDay micros % 60) * 1000000 + mtcRemMicros micros = micros
  rw [civil_roundtrip (mtcDays micros)]
  have h1 : mtcTotalSecs micros = micros / 1000000 := rfl
  have h2 : mtcRemMicros micros = micros % 1000000 := rfl
  have h3 : mtcTimeOfDay micros = mtcTotalSecs micros % 86400 := rfl
  have h4 : mtcDays micros = mtcTotalSecs micros / 86400 := rfl
  omega

theorem claimC6_timestamp_roundtrip_witness :
    (-(2 ^ 63) ≤ (-1 : ℤ) ∧ (-1 : ℤ) < 2 ^ 63) ∧
    components_to_micros (micros_to_components (-1)) = -1 :=
  ⟨⟨by decide, by decide⟩, claimC6_timestamp_roundtrip (-1) (by decide) (by decide)⟩

/-! ### Decimal digit strings (model of Rust integer to_string) -/

/-- Character for a single decimal digit. -/
def digitChar (d : ℕ) : Char := Char.ofNat (48 + d)

/-- Little-endian decimal digits, structurally recursive on a fuel bound. -/
def natDigitsRevFuel : ℕ → ℕ → List ℕ
  | 0, _ => []
  | f + 1, n => if n = 0 then [] else n % 10 :: natDigitsRevFuel f (n / 10)

theorem natDigitsRevFuel_eq_digits : ∀ f n, n ≤ f → natDigitsRevFuel f n = Nat.digits 10 n := by
  intro f
  induction f with
  | zero =>
    intro n h
    have h0 : n = 0 := by omega
    simp [natDigitsRevFuel, h0]
  | succ f ih =>
    intro n h
    by_cases h0 : n = 0
    · simp [natDigitsRevFuel, h0]
    · rw [natDigitsRevFuel, if_neg h0,
        Nat.digits_def' (by norm_num : (1 : ℕ) < 10) (Nat.pos_of_ne_zero h0),
        ih (n / 10) (by omega)]

/-- Decimal rendering of a natural number, the model of Rust u128::to_string
used by decimal_i128_to_string (types.rs line 83). -/
def natToChars (n : ℕ) : List Char :=
  if n = 0 then [digitChar 0] else ((natDigitsRevFuel n n).reverse).map digitChar

/-- Big-endian value of a digit string. -/
def digitsToNat (l : List Char) : ℕ := l.foldl (fun a c => 10 * a + (c.toNat - 48)) 0

theorem digitsToNat_foldl : ∀ (l : List Char) (a : ℕ),
    l.foldl (fun a c => 10 * a + (c.toNat - 48)) a = a * 10 ^ l.length + digitsToNat l := by
  intro l
  induction l with
  | nil => intro a; simp [digitsToNat]
  | cons c t ih =>
    intro a
    have h1 : digitsToNat (c :: t) = (c.toNat - 48) * 10 ^ t.length + digitsToNat t := by
      show List.foldl _ (10 * 0 + (c.toNat - 48)) t = _
      rw [ih (10 * 0 + (c.toNat - 48))]
      ring_nf
    show List.foldl _ (10 * a + (c.toNat - 48)) t = _
    rw [ih (10 * a + (c.toNat - 48)), h1, List.length_cons]
    ring

theorem digitsToNat_append (x y : List Char) :
    digitsToNat (x ++ y) = digitsToNat x * 10 ^ y.length + digitsToNat y := by
  unfold digitsToNat
  rw [List.foldl_append, digitsToNat_foldl y (List.foldl _ 0 x)]
  rfl

theorem digitChar_toNat (d : ℕ) (h : d < 10) : (digitChar d).toNat = 48 + d := by
  interval_cases d <;> decide

theorem digitsToNat_single (d : ℕ) (h : d < 10) : digitsToNat [digitChar d] = d := by
  unfold digitsToNat
  simp [digitChar_toNat d h]

theorem digitsToNat_rev_digits : ∀ n, digitsToNat ((Nat.digits 10 n).reverse.map digitChar) = n := by
  intro n
  induction n using Nat.strong_induction_on with
  | _ n ih =>
    by_cases h0 : n = 0
    · simp [h0, digitsToNat]
    · rw [Nat.digits_def' (by norm_num : (1 : ℕ) < 10) (Nat.pos_of_ne_zero h0)]
      simp only [List.reverse_cons, List.map_append, List.map_cons, List.map_nil]
      rw [digitsToNat_append, ih (n / 10) (Nat.div_lt_self (Nat.pos_of_ne_zero h0) (by norm_num)),
        digitsToNat_single (n % 10) (Nat.mod_lt n (by norm_num))]
      simp
      omega

theorem digitsToNat_natToChars (n : ℕ) : digitsToNat (natToChars n) = n := by
  unfold natToChars
  by_cases h0 : n = 0
  · simp [h0]
    decide
  · rw [if_neg h0, natDigitsRevFuel_eq_digits n n le_rfl, digitsToNat_rev_digits]

theorem natToChars_ne_nil (n : ℕ) : natToChars n ≠ [] := by
  unfold natToChars
  by_cases h0 : n = 0
  · simp [h0]
  · rw [if_neg h0, natDigitsRevFuel_eq_digits n n le_rfl]
    simp [Nat.digits_ne_nil_iff_ne_zero.mpr h0]

theorem digitChar_isDigit (d : ℕ) (h : d < 10) : (digitChar d).isDigit = true := by
  interval_cases d <;> decide

theorem natToChars_all_digits (n : ℕ) : ∀ c ∈ natToChars n, c.isDigit = true := by
  unfold natToChars
  by_cases h0 : n = 0
  · simp [h0]
    decide
  · rw [if_neg h0, natDigitsRevFuel_eq_digits n n le_rfl]
    intro c hc
    simp only [List.mem_map, List.mem_reverse] at hc
    obtain ⟨d, hd, rfl⟩ := hc
    exact digitChar_isDigit d (Nat.digits_lt_base (by norm_num) hd)

/-! ### Decimal to string (types.rs, decimal_i128_to_string, lines 80-89) -/

/-- Body of decimal_i128_to_string after taking the absolute value: scale 0
keeps the digit string; a digit string no longer than the scale is rendered
as 0.(zero padding)(digits); otherwise the decimal point is inserted at
position len - scale (the split_at of the source). -/
def decimalCore (s : List Char) (scale : ℕ) : List Char :=
  if scale = 0 then s
  else if s.length ≤ scale then
    [digitChar 0, '.'] ++ List.replicate (scale - s.length) (digitChar 0) ++ s
  else s.take (s.length - scale) ++ '.' :: s.drop (s.length - scale)

/-- decimal_i128_to_string (types.rs lines 80-89): render mantissa and scale
as a fixed-point decimal string, prefixing a minus sign for negative values. -/
def decimal_i128_to_string (value : ℤ) (scale : ℕ) : List Char :=
  if value < 0 then '-' :: decimalCore (natToChars value.natAbs) scale
  else decimalCore (natToChars value.natAbs) scale

/-- Parser giving the meaning of a fixed-point decimal string: a nonempty
digit run, optionally followed by a decimal point and a nonempty digit run;
returns the unsigned integer numerator (all digits read as one number) and
the number of fractional digits. Verification-side definition used to state
exactness of the rendering. -/
def parseUnsigned (cs : List Char) : Option (ℕ × ℕ) :=
  if cs.takeWhile (fun c => c.isDigit) = [] then none
  else if cs.dropWhile (fun c => c.isDigit) = [] then
    some (digitsToNat (cs.takeWhile (fun c => c.isDigit)), 0)
  else if (cs.dropWhile (fun c => c.isDigit)).headD ' ' = '.' ∧
      (cs.dropWhile (fun c => c.isDigit)).tail ≠ [] ∧
      ((cs.dropWhile (fun c => c.isDigit)).tail.all (fun x => x.isDigit)) = true then
    some (digitsToNat (cs.takeWhile (fun c => c.isDigit) ++
      (cs.dropWhile (fun c => c.isDigit)).tail),
      (cs.dropWhile (fun c => c.isDigit)).tail.length)
  else none

/-- Signed fixed-point parser; see parseUnsigned. -/
def parseFixed (cs : List Char) : Option (ℤ × ℕ) :=
  if cs.headD ' ' = '-' then (parseUnsigned cs.tail).map (fun p => (-(p.1 : ℤ), p.2))
  else (parseUnsigned cs).map (fun p => ((p.1 : ℤ), p.2))

theorem takeWhile_append_all {p : Char → Bool} :
    ∀ (l r : List Char), (∀ c ∈ l, p c = true) →
    (l ++ r).takeWhile p = l ++ r.takeWhile p ∧ (l ++ r).dropWhile p = r.dropWhile p := by
  intro l
  induction l with
  | nil => intro r _; simp
  | cons c t ih =>
    intro r h
    have hc : p c = true := h c (List.mem_cons_self c t)
    have ht := ih r (fun x hx => h x (List.mem_cons_of_mem c hx))
    simp only [List.cons_append, List.takeWhile_cons, List.dropWhile_cons, hc, if_true]
    exact ⟨by rw [ht.1], by rw [ht.2]⟩

theorem takeWhile_of_all {p : Char → Bool} (l : List Char) (h : ∀ c ∈ l, p c = true) :
    l.takeWhile p = l ∧ l.dropWhile p = [] := by
  have := takeWhile_append_all l [] h
  simpa using this

theorem digitsToNat_zeros : ∀ k, digitsToNat (List.replicate k (digitChar 0)) = 0 := by
  intro k
  induction k with
  | zero => rfl
  | succ k ih =>
    show List.foldl _ (10 * 0 + ((digitChar 0).toNat - 48)) (List.replicate k (digitChar 0)) = 0
    have h : 10 * 0 + ((digitChar 0).toNat - 48) = 0 := by decide
    rw [h]
    exact ih

theorem digitsToNat_zeros_append (k : ℕ) (s : List Char) :
    digitsToNat (List.replicate k (digitChar 0) ++ s) = digitsToNat s := by
  rw [digitsToNat_append, digitsToNat_zeros]
  simp

theorem dot_not_digit : ('.' : Char).isDigit = false := by decide

/-- parseUnsigned recovers the value and scale from decimalCore of a
nonempty all-digit string. -/
theorem parseUnsigned_decimalCore (s : List Char) (scale : ℕ)
    (hne : s ≠ []) (hdig : ∀ c ∈ s, c.isDigit = true) :
    parseUnsigned (decimalCore s scale) = some (digitsToNat s, scale) := by
  unfold decimalCore
  by_cases h0 : scale = 0
  · rw [if_pos h0]
    unfold parseUnsigned
    simp only [(takeWhile_of_all s hdig).1, (takeWhile_of_all s hdig).2]
    rw [if_neg hne, if_pos trivial, h0]
  · rw [if_neg h0]
    by_cases hlen : s.length ≤ scale
    · rw [if_pos hlen]
      have hall : ∀ c ∈ [digitChar 0], (fun c => c.isDigit) c = true := by decide
      have e : [digitChar 0, '.'] ++ List.replicate (scale - s.length) (digitChar 0) ++ s =
          [digitChar 0] ++ ('.' :: (List.replicate (scale - s.length) (digitChar 0) ++ s)) := by
        simp
      have h1 := takeWhile_append_all [digitChar 0]
        ('.' :: (List.replicate (scale - s.length) (digitChar 0) ++ s)) hall
      have hdot : ('.' :: (List.replicate (scale - s.length) (digitChar 0) ++ s)).takeWhile
          (fun c => c.isDigit) = [] := by
        rw [List.takeWhile_cons, dot_not_digit]
        rfl
      have hdotd : ('.' :: (List.replicate (scale - s.length) (digitChar 0) ++ s)).dropWhile
          (fun c => c.isDigit) = '.' :: (List.replicate (scale - s.length) (digitChar 0) ++ s) := by
        rw [List.dropWhile_cons, dot_not_digit]
        rfl
      have hfrac_ne : List.replicate (scale - s.length) (digitChar 0) ++ s ≠ [] := by
        simp [hne]
      have hfrac_all : ((List.replicate (scale - s.length) (digitChar 0) ++ s).all
          (fun x => x.isDigit)) = true := by
        rw [List.all_eq_true]
        intro c hc
        rcases List.mem_append.mp hc with h | h
        · rw [List.eq_of_mem_replicate h]
          decide
        · exact hdig c h
      unfold parseUnsigned
      rw [e]
      simp only [h1.1, h1.2, hdot, hdotd, List.append_nil]
      rw [if_neg (by simp : ¬ ([digitChar 0] : List Char) = [])]
      rw [if_neg (by simp : ¬ ('.' :: (List.replicate (scale - s.length) (digitChar 0) ++ s)) = [])]
      rw [if_pos ⟨rfl, by exact hfrac_ne, by exact hfrac_all⟩]
      have hval : digitsToNat ([digitChar 0] ++
          (List.replicate (scale - s.length) (digitChar 0) ++ s)) = digitsToNat s := by
        rw [digitsToNat_append, digitsToNat_zeros_append]
        have hd0 : digitsToNat [digitChar 0] = 0 := by decide
        rw [hd0]
        simp
      simp only [List.tail_cons, hval]
      have hlenq : (List.replicate (scale - s.length) (digitChar 0) ++ s).length = scale := by
        simp only [List.length_append, List.length_replicate]
        omega
      rw [hlenq]
    · rw [if_neg hlen]
      have htake_all : ∀ c ∈ s.take (s.length - scale), (fun c => c.isDigit) c = true :=
        fun c hc => hdig c (List.mem_of_mem_take hc)
      have h1 := takeWhile_append_all (s.take (s.length - scale))
        ('.' :: s.drop (s.length - scale)) htake_all
      have hdot : ('.' :: s.drop (s.length - scale)).takeWhile (fun c => c.isDigit) = [] := by
        rw [List.takeWhile_cons, dot_not_digit]
        rfl
      have hdotd : ('.' :: s.drop (s.length - scale)).dropWhile (fun c => c.isDigit) =
          '.' :: s.drop (s.length - scale) := by
        rw [List.dropWhile_cons, dot_not_digit]
        rfl
      have htk_ne : s.take (s.length - scale) ≠ [] := by
        intro hcon
        have hl : (s.take (s.length - scale)).length = s.length - scale := by
          rw [List.length_take]
          omega
        rw [hcon] at hl
        simp at hl
        have : 0 < s.length := List.length_pos.mpr hne
        omega
      have hdrop_len : (s.drop (s.length - scale)).length = scale := by
        rw [List.length_drop]
        omega
      have hdrop_ne : s.drop (s.length - scale) ≠ [] := by
        intro hcon
        rw [hcon] at hdrop_len
        simp at hdrop_len
        omega
      have hdrop_all : ((s.drop (s.length - scale)).all (fun x => x.isDigit)) = true := by
        rw [List.all_eq_true]
        exact fun c hc => hdig c (List.mem_of_mem_drop hc)
      unfold parseUnsigned
      simp only [h1.1, h1.2, hdot, hdotd, List.append_nil]
      rw [if_neg htk_ne]
      rw [if_neg (by simp : ¬ ('.' :: s.drop (s.length - scale)) = [])]
      rw [if_pos ⟨rfl, by exact hdrop_ne, by exact hdrop_all⟩]
      simp only [List.tail_cons]
      rw [List.take_append_drop, hdrop_len]

theorem isDigit_ne_dash (c : Char) (h : c.isDigit = true) : ¬ c = '-' := by
  intro hc
  rw [hc] at h
  exact absurd h (by decide)

/-- The first character of decimalCore of a nonempty all-digit string is a
digit. -/
theorem decimalCore_head_digit (s : List Char) (scale : ℕ)
    (hne : s ≠ []) (hdig : ∀ c ∈ s, c.isDigit = true) :
    ∃ c t, decimalCore s scale = c :: t ∧ c.isDigit = true := by
  unfold decimalCore
  by_cases h0 : scale = 0
  · rw [if_pos h0]
    cases s with
    | nil => exact absurd rfl hne
    | cons c t => exact ⟨c, t, rfl, hdig c (List.mem_cons_self c t)⟩
  · rw [if_neg h0]
    by_cases hlen : s.length ≤ scale
    · rw [if_pos hlen]
      exact ⟨digitChar 0, _, rfl, by decide⟩
    · rw [if_neg hlen]
      have htk_ne : s.take (s.length - scale) ≠ [] := by
        have : (s.take (s.length - scale)).length = s.length - scale := by
          rw [List.length_take]
          omega
        intro hcon
        rw [hcon] at this
        simp at this
        omega
      cases htk : s.take (s.length - scale) with
      | nil => exact absurd htk htk_ne
      | cons c t =>
        refine ⟨c, t ++ '.' :: s.drop (s.length - scale), by simp, ?_⟩
        have : c ∈ s.take (s.length - scale) := by rw [htk]; exact List.mem_cons_self c t
        exact hdig c (List.mem_of_mem_take this)

/-- Claim C7: decimal rendering is the exact fixed-point base-10
representation of the mantissa scaled by the scale: parsing the output
recovers exactly the mantissa and scale, the leading minus sign appears
exactly for negative mantissas, and the two worked examples of the
specification hold. -/
theorem claimC7_decimal_to_string :
    (∀ (v : ℤ) (s : ℕ), parseFixed (decimal_i128_to_string v s) = some (v, s)) ∧
    (∀ (v : ℤ) (s : ℕ), (decimal_i128_to_string v s).head? = some '-' ↔ v < 0) ∧
    decimal_i128_to_string 12345 2 = ['1', '2', '3', '.', '4', '5'] ∧
    decimal_i128_to_string (-5) 3 = ['-', '0', '.', '0', '0', '5'] := by
  have key : ∀ (v : ℤ) (s : ℕ),
      parseUnsigned (decimalCore (natToChars v.natAbs) s) = some (v.natAbs, s) := by
    intro v s
    rw [parseUnsigned_decimalCore (natToChars v.natAbs) s (natToChars_ne_nil _)
      (natToChars_all_digits _), digitsToNat_natToChars]
  refine ⟨?_, ?_, by decide, by decide⟩
  · intro v s
    unfold decimal_i128_to_string
    by_cases hv : v < 0
    · rw [if_pos hv]
      unfold parseFixed
      rw [if_pos (by rfl : ('-' :: decimalCore (natToChars v.natAbs) s).headD ' ' = '-')]
      simp only [List.tail_cons]
      rw [key v s]
      simp only [Option.map_some']
      congr 2
      omega
    · rw [if_neg hv]
      obtain ⟨c, t, hct, hcdig⟩ := decimalCore_head_digit (natToChars v.natAbs) s
        (natToChars_ne_nil _) (natToChars_all_digits _)
      unfold parseFixed
      rw [hct]
      rw [if_neg (by simp only [List.headD_cons]; exact isDigit_ne_dash c hcdig)]
      rw [← hct, key v s]
      simp only [Option.map_some']
      congr 2
      omega
  · intro v s
    unfold decimal_i128_to_string
    by_cases hv : v < 0
    · simp [hv]
    · rw [if_neg hv]
      obtain ⟨c, t, hct, hcdig⟩ := decimalCore_head_digit (natToChars v.natAbs) s
        (natToChars_ne_nil _) (natToChars_all_digits _)
      rw [hct]
      simp only [List.head?_cons, Option.some_inj]
      constructor
      · intro hc
        exact absurd hc (isDigit_ne_dash c hcdig)
      · intro hc
        exact absurd hc hv

/-! ### String replacement (model of Rust str::replace)

Rust String::replace scans left to right and replaces every non-overlapping
occurrence of the pattern. The model below is structurally recursive on a
fuel bound so that it evaluates inside the kernel; replaceAll instantiates
the fuel with the length of the subject, which suffices for any nonempty
needle.
-/

/-- Boolean list-prefix test (model of Rust pattern matching at a position). -/
def isPrefOf : List Char → List Char → Bool
  | [], _ => true
  | _ :: _, [] => false
  | a :: as, b :: bs => decide (a = b) && isPrefOf as bs

theorem isPrefOf_append_self (l t : List Char) : isPrefOf l (l ++ t) = true := by
  induction l with
  | nil => rfl
  | cons c cs ih => simp [isPrefOf, ih]

theorem isPrefOf_length_le : ∀ l m : List Char, isPrefOf l m = true → l.length ≤ m.length := by
  intro l
  induction l with
  | nil => intro m _; simp
  | cons c cs ih =>
    intro m h
    cases m with
    | nil => exact absurd h (by simp [isPrefOf])
    | cons b bs =>
      simp only [isPrefOf, Bool.and_eq_true] at h
      have := ih bs h.2
      simp only [List.length_cons]
      omega

theorem isPrefOf_take : ∀ l m : List Char, isPrefOf l m = true → m.take l.length = l := by
  intro l
  induction l with
  | nil => intro m _; simp
  | cons c cs ih =>
    intro m h
    cases m with
    | nil => exact absurd h (by simp [isPrefOf])
    | cons b bs =>
      simp only [isPrefOf, Bool.and_eq_true, decide_eq_true_eq] at h
      simp only [List.length_cons, List.take_succ_cons, ih bs h.2, h.1]

theorem isPrefOf_of_take : ∀ l m : List Char, m.take l.length = l → isPrefOf l m = true := by
  intro l
  induction l with
  | nil => intro m _; rfl
  | cons c cs ih =>
    intro m h
    cases m with
    | nil => simp at h
    | cons b bs =>
      simp only [List.length_cons, List.take_succ_cons, List.cons.injEq] at h
      simp only [isPrefOf, Bool.and_eq_true, decide_eq_true_eq]
      exact ⟨h.1.symm ▸ rfl, ih bs h.2⟩

theorem isPrefOf_append_left : ∀ l a b : List Char, isPrefOf l (a ++ b) = true →
    l.length ≤ a.length → isPrefOf l a = true := by
  intro l a b h hlen
  apply isPrefOf_of_take
  have := isPrefOf_take l (a ++ b) h
  rwa [List.take_append_of_le_length hlen] at this

theorem isPrefOf_drop : ∀ (k : ℕ) (l m : List Char), isPrefOf l m = true →
    isPrefOf (l.drop k) (m.drop k) = true := by
  intro k
  induction k with
  | zero => intro l m h; simpa using h
  | succ k ih =>
    intro l m h
    cases l with
    | nil => simp [isPrefOf]
    | cons c cs =>
      cases m with
      | nil => exact absurd h (by simp [isPrefOf])
      | cons b bs =>
        simp only [isPrefOf, Bool.and_eq_true] at h
        simpa using ih cs bs h.2

theorem isPrefOf_trans_le : ∀ l₁ l₂ m : List Char, isPrefOf l₁ m = true →
    isPrefOf l₂ m = true → l₁.length ≤ l₂.length → isPrefOf l₁ l₂ = true := by
  intro l₁ l₂ m h1 h2 hle
  apply isPrefOf_of_take
  have t1 := isPrefOf_take l₁ m h1
  have t2 := isPrefOf_take l₂ m h2
  rw [← t2, List.take_take, Nat.min_eq_left hle, t1]

/-- Fuel-bounded left-to-right replace-all. -/
def replaceAllFuel : ℕ → List Char → List Char → List Char → List Char
  | 0, _, _, s => s
  | f + 1, needle, rep, s =>
    match s with
    | [] => []
    | c :: rest =>
      if isPrefOf needle (c :: rest) = true then
        rep ++ replaceAllFuel f needle rep ((c :: rest).drop needle.length)
      else c :: replaceAllFuel f needle rep rest

/-- Model of Rust str::replace for a nonempty pattern: replace every
non-overlapping occurrence of needle by rep, scanning left to right. -/
def replaceAll (needle rep s : List Char) : List Char := replaceAllFuel s.length needle rep s

theorem replaceAllFuel_congr (needle rep : List Char) (hne : needle ≠ []) :
    ∀ f₁ f₂ s, s.length ≤ f₁ → s.length ≤ f₂ →
    replaceAllFuel f₁ needle rep s = replaceAllFuel f₂ needle rep s := by
  intro f₁
  induction f₁ with
  | zero =>
    intro f₂ s h1 h2
    have : s = [] := by
      cases s with
      | nil => rfl
      | cons c t => simp at h1
    rw [this]
    cases f₂ <;> rfl
  | succ f ih =>
    intro f₂ s h1 h2
    cases s with
    | nil => cases f₂ <;> rfl
    | cons c rest =>
      cases f₂ with
      | zero => simp at h2
      | succ g =>
        show (if isPrefOf needle (c :: rest) = true then _ else _) =
          (if isPrefOf needle (c :: rest) = true then _ else _)
        by_cases hp : isPrefOf needle (c :: rest) = true
        · rw [if_pos hp, if_pos hp]
          have hlen : 1 ≤ needle.length := by
            cases needle with
            | nil => exact absurd rfl hne
            | cons a b => simp
          have hdl : ((c :: rest).drop needle.length).length ≤ f := by
            rw [List.length_drop]
            simp only [List.length_cons] at h1 ⊢
            omega
          have hdl2 : ((c :: rest).drop needle.length).length ≤ g := by
            rw [List.length_drop]
            simp only [List.length_cons] at h2 ⊢
            omega
          rw [ih g _ hdl hdl2]
        · rw [if_neg hp, if_neg hp]
          have hr1 : rest.length ≤ f := by simp only [List.length_cons] at h1; omega
          have hr2 : rest.length ≤ g := by simp only [List.length_cons] at h2; omega
          rw [ih g rest hr1 hr2]

theorem replaceAll_nil (needle rep : List Char) : replaceAll needle rep [] = [] := rfl

theorem replaceAll_pos (needle rep : List Char) (hne : needle ≠ []) (c : Char)
    (rest : List Char) (hp : isPrefOf needle (c :: rest) = true) :
    replaceAll needle rep (c :: rest) =
      rep ++ replaceAll needle rep ((c :: rest).drop needle.length) := by
  show replaceAllFuel (rest.length + 1) needle rep (c :: rest) = _
  rw [replaceAllFuel]
  simp only [hp, if_true]
  congr 1
  apply replaceAllFuel_congr needle rep hne
  · rw [List.length_drop]
    simp only [List.length_cons]
    have : 1 ≤ needle.length := by
      cases needle with
      | nil => exact absurd rfl hne
      | cons a b => simp
    omega
  · exact le_rfl

theorem replaceAll_neg (needle rep : List Char) (hne : needle ≠ []) (c : Char)
    (rest : List Char) (hp : ¬ isPrefOf needle (c :: rest) = true) :
    replaceAll needle rep (c :: rest) = c :: replaceAll needle rep rest := by
  show replaceAllFuel (rest.length + 1) needle rep (c :: rest) = _
  rw [replaceAllFuel]
  simp only [hp, if_false]
  rfl

/-! ### Text literal encoding (types.rs, py_to_sql_literal, lines 198-203) -/

/-- The single-quote character. -/
def quoteChar : Char := Char.ofNat 39

/-- Text parameter encoding (types.rs lines 198-201): N, a quote, the text
with every single quote doubled by str::replace, and a closing quote. -/
def encode_text_literal (t : List Char) : List Char :=
  'N' :: quoteChar :: (replaceAll [quoteChar] [quoteChar, quoteChar] t ++ [quoteChar])

/-- Fallback encoding for unsupported parameter types (types.rs lines
202-203): the stringified value is escaped by the same rule. -/
def encode_fallback_literal (t : List Char) : List Char :=
  'N' :: quoteChar :: (replaceAll [quoteChar] [quoteChar, quoteChar] t ++ [quoteChar])

theorem replaceAll_quote_flatMap (t : List Char) :
    replaceAll [quoteChar] [quoteChar, quoteChar] t =
      t.flatMap (fun c => if c = quoteChar then [quoteChar, quoteChar] else [c]) := by
  induction t with
  | nil => rfl
  | cons c rest ih =>
    by_cases hc : c = quoteChar
    · rw [replaceAll_pos [quoteChar] [quoteChar, quoteChar] (by simp) c rest
        (by simp [isPrefOf, hc])]
      simp only [List.length_cons, List.length_nil, List.drop_succ_cons, List.drop_zero]
      rw [ih]
      simp [hc]
    · rw [replaceAll_neg [quoteChar] [quoteChar, quoteChar] (by simp) c rest
        (by simp [isPrefOf]; exact fun hq => absurd hq.symm hc)]
      rw [ih]
      simp [hc]

/-- Claim C8: encode_literal on text yields N, an opening quote, the text
with every single-quote doubled, and a closing quote; the worked example
O'Brien encodes as N'O''Brien'; and any otherwise-unsupported value is
stringified and escaped by the same rule. -/
theorem claimC8_text_literal :
    (∀ t : List Char, encode_text_literal t =
      ['N', quoteChar] ++
        t.flatMap (fun c => if c = quoteChar then [quoteChar, quoteChar] else [c]) ++
        [quoteChar]) ∧
    encode_text_literal ['O', quoteChar, 'B', 'r', 'i', 'e', 'n'] =
      ['N', quoteChar, 'O', quoteChar, quoteChar, 'B', 'r', 'i', 'e', 'n', quoteChar] ∧
    (∀ t : List Char, encode_fallback_literal t = encode_text_literal t) := by
  refine ⟨?_, by decide, fun t => rfl⟩
  intro t
  unfold encode_text_literal
  rw [replaceAll_quote_flatMap]
  simp

/-! ### Replacement over concatenations -/

theorem isPrefOf_append_extend (l a b : List Char) (h : isPrefOf l a = true) :
    isPrefOf l (a ++ b) = true := by
  apply isPrefOf_of_take
  rw [List.take_append_of_le_length (isPrefOf_length_le l a h)]
  exact isPrefOf_take l a h

/-- Splitting replace-all at a concatenation boundary: when every occurrence
of the needle that starts inside the left part lies entirely within the left
part, replace-all distributes over the concatenation. -/
theorem replaceAll_append (needle rep : List Char) (hne : needle ≠ []) :
    ∀ n a b, a.length = n →
    (∀ k, k < a.length → isPrefOf needle (a.drop k ++ b) = true →
      needle.length ≤ a.length - k) →
    replaceAll needle rep (a ++ b) = replaceAll needle rep a ++ replaceAll needle rep b := by
  intro n
  induction n using Nat.strong_induction_on with
  | _ n ih =>
    intro a b hlen hcond
    cases a with
    | nil => simp [replaceAll_nil]
    | cons c rest =>
      have hnl : 1 ≤ needle.length := by
        cases needle with
        | nil => exact absurd rfl hne
        | cons x xs => simp
      by_cases hp : isPrefOf needle ((c :: rest) ++ b) = true
      · have h0 := hcond 0 (by simp) (by simpa using hp)
        have hpa : isPrefOf needle (c :: rest) = true :=
          isPrefOf_append_left needle (c :: rest) b hp (by omega)
        rw [show (c :: rest) ++ b = c :: (rest ++ b) from rfl]
        rw [replaceAll_pos needle rep hne c (rest ++ b) (by simpa using hp)]
        rw [replaceAll_pos needle rep hne c rest hpa]
        have hdropa : (c :: (rest ++ b)).drop needle.length =
            ((c :: rest).drop needle.length) ++ b := by
          rw [show c :: (rest ++ b) = (c :: rest) ++ b from rfl]
          exact List.drop_append_of_le_length (by simpa using h0)
        rw [hdropa]
        have hlt : ((c :: rest).drop needle.length).length < n := by
          rw [List.length_drop]
          simp only [List.length_cons] at hlen ⊢
          omega
        rw [ih _ hlt _ b rfl ?_]
        · rw [List.append_assoc]
        · intro k hk hpk
          have hd : ((c :: rest).drop needle.length).drop k = (c :: rest).drop (needle.length + k) := by
            rw [List.drop_drop]
          rw [hd] at hpk
          have := hcond (needle.length + k) (by
            rw [List.length_drop] at hk
            simp only [List.length_cons] at hk ⊢
            omega) hpk
          rw [List.length_drop] at hk ⊢
          omega
      · have hpa : ¬ isPrefOf needle (c :: rest) = true := by
          intro hcon
          exact hp (isPrefOf_append_extend needle (c :: rest) b hcon)
        rw [show (c :: rest) ++ b = c :: (rest ++ b) from rfl]
        rw [replaceAll_neg needle rep hne c (rest ++ b) (by simpa using hp)]
        rw [replaceAll_neg needle rep hne c rest hpa]
        have hlt : rest.length < n := by
          simp only [List.length_cons] at hlen
          omega
        rw [ih _ hlt rest b rfl ?_]
        · rfl
        · intro k hk hpk
          have := hcond (k + 1) (by simp only [List.length_cons]; omega)
            (by simpa using hpk)
          simp only [List.length_cons] at this
          omega

/-- A needle starting with a character absent from the subject never occurs,
so replace-all leaves the subject unchanged. -/
theorem replaceAll_of_head_notMem (c₀ : Char) (nt rep : List Char) :
    ∀ s : List Char, (∀ c ∈ s, c ≠ c₀) →
    replaceAll (c₀ :: nt) rep s = s := by
  intro s
  induction s with
  | nil => intro _; rfl
  | cons c rest ih =>
    intro h
    have hc : c ≠ c₀ := h c (List.mem_cons_self c rest)
    rw [replaceAll_neg (c₀ :: nt) rep (by simp) c rest
      (by simp [isPrefOf]; exact fun hq => absurd hq.symm hc)]
    rw [ih (fun x hx => h x (List.mem_cons_of_mem c hx))]

/-! ### Parameter substitution (lib.rs, substitute_params, lines 262-271) -/

/-- Placeholder text for 1-based index i: the format @p i of the source. -/
def phStr (i : ℕ) : List Char := '@' :: 'p' :: natToChars i

/-- substitute_params (lib.rs lines 262-271): iterate the parameter index i
from params.len() - 1 down to 0 and replace every occurrence of @p(i+1) by
the encoded literal of params[i]. The model receives the already-encoded
literal texts; the counter here is the 1-based index of the placeholder
still to be processed. -/
def substAux (lits : List (List Char)) : ℕ → List Char → List Char
  | 0, s => s
  | j + 1, s => substAux lits j (replaceAll (phStr (j + 1)) (lits.getD j []) s)

def substitute_params (sql : List Char) (lits : List (List Char)) : List Char :=
  substAux lits lits.length sql

/-- An element of a decomposed SQL template: a literal text segment or a
1-based placeholder index. -/
inductive TplElem where
  | seg (s : List Char)
  | ph (i : ℕ)
deriving DecidableEq, Repr

/-- Render a template decomposition to its SQL text. -/
def renderTpl : List TplElem → List Char
  | [] => []
  | TplElem.seg s :: r => s ++ renderTpl r
  | TplElem.ph i :: r => phStr i ++ renderTpl r

/-- Render with placeholders of index above j already replaced by their
literals: the intermediate state of the descending substitution loop. -/
def mixedRender (lits : List (List Char)) (j : ℕ) : List TplElem → List Char
  | [] => []
  | TplElem.seg s :: r => s ++ mixedRender lits j r
  | TplElem.ph i :: r =>
    (if j < i then lits.getD (i - 1) [] else phStr i) ++ mixedRender lits j r

/-- Render with every placeholder replaced by its own literal: the claimed
result of the substitution. -/
def renderWith (lits : List (List Char)) : List TplElem → List Char
  | [] => []
  | TplElem.seg s :: r => s ++ renderWith lits r
  | TplElem.ph i :: r => lits.getD (i - 1) [] ++ renderWith lits r

/-- Does the text start with a decimal digit? -/
def digitStartB : List Char → Bool
  | [] => false
  | c :: _ => c.isDigit

/-- Well-formedness of a template decomposition relative to the literal
list: segments contain no at-sign, every placeholder index is between 1 and
the number of literals, and the text following a placeholder never starts
with a digit at any stage of the substitution (otherwise the trailing digit
would extend the placeholder number, as in @p1 directly followed by text
starting with a digit). -/
def okTpl (lits : List (List Char)) : List TplElem → Bool
  | [] => true
  | TplElem.seg s :: r => s.all (fun c => decide (c ≠ '@')) && okTpl lits r
  | TplElem.ph i :: r =>
    decide (1 ≤ i) && decide (i ≤ lits.length) &&
    (List.range (lits.length + 1)).all (fun j => !digitStartB (mixedRender lits j r)) &&
    okTpl lits r

theorem natToChars_length (n : ℕ) (hn : n ≠ 0) :
    (natToChars n).length = (Nat.digits 10 n).length := by
  unfold natToChars
  rw [if_neg hn, natDigitsRevFuel_eq_digits n n le_rfl]
  simp

theorem natToChars_inj (a b : ℕ) (h : natToChars a = natToChars b) : a = b := by
  have ha := digitsToNat_natToChars a
  have hb := digitsToNat_natToChars b
  rw [← ha, ← hb, h]

theorem natToChars_pref_le (a b : ℕ) (ha : 1 ≤ a) (hb : 1 ≤ b)
    (h : isPrefOf (natToChars a) (natToChars b) = true) : a ≤ b := by
  have hlen := isPrefOf_length_le _ _ h
  rcases eq_or_lt_of_le hlen with heq | hlt
  · have ht := isPrefOf_take _ _ h
    rw [heq, List.take_length] at ht
    have hba := natToChars_inj b a ht
    omega
  · have hla : (natToChars a).length = (Nat.digits 10 a).length :=
      natToChars_length a (by omega)
    have hlb : (natToChars b).length = (Nat.digits 10 b).length :=
      natToChars_length b (by omega)
    have h1 : a < 10 ^ (Nat.digits 10 a).length :=
      Nat.lt_base_pow_length_digits (by norm_num)
    have h2 : 10 ^ (Nat.digits 10 b).length ≤ 10 * b :=
      Nat.base_pow_length_digits_le 10 b (by norm_num) (by omega)
    have hb1 : 1 ≤ (Nat.digits 10 b).length :=
      List.length_pos.mpr (Nat.digits_ne_nil_iff_ne_zero.mpr (by omega))
    have h2' : 10 ^ ((Nat.digits 10 b).length - 1) ≤ b := by
      have e : 10 ^ (Nat.digits 10 b).length = 10 * 10 ^ ((Nat.digits 10 b).length - 1) := by
        rw [← pow_succ']
        congr 1
        omega
      rw [e] at h2
      omega
    have h4 : 10 ^ (Nat.digits 10 a).length ≤ 10 ^ ((Nat.digits 10 b).length - 1) :=
      Nat.pow_le_pow_right (by norm_num) (by omega)
    omega

theorem isDigit_ne_at (c : Char) (h : c.isDigit = true) : c ≠ '@' := by
  intro hc
  rw [hc] at h
  exact absurd h (by decide)

/-- Head-mismatch criterion: an at-sign-headed needle is no prefix of a text
whose first character is not an at-sign. -/
theorem isPrefOf_at_head_false (nt R X : List Char) (hX : ∀ c ∈ X, c ≠ '@')
    (hXne : X ≠ []) (h : isPrefOf ('@' :: nt) (X ++ R) = true) : False := by
  cases X with
  | nil => exact absurd rfl hXne
  | cons c t =>
    have hc : c ≠ '@' := hX c (List.mem_cons_self c t)
    simp only [List.cons_append, isPrefOf, Bool.and_eq_true, decide_eq_true_eq] at h
    exact hc h.1.symm

/-- A longer-numbered placeholder cannot occur at the position of a
smaller-numbered one when the following text does not start with a digit. -/
theorem phStr_no_occurrence (i j : ℕ) (hi : 1 ≤ i) (hj : 1 ≤ j) (hij : i < j)
    (R : List Char) (hR : digitStartB R = false) :
    ¬ isPrefOf (phStr j) (phStr i ++ R) = true := by
  intro h
  have h2 : isPrefOf (natToChars j) (natToChars i ++ R) = true := by
    simpa [phStr, isPrefOf] using h
  by_cases hle : (natToChars j).length ≤ (natToChars i).length
  · have hpre : isPrefOf (natToChars j) (natToChars i) = true :=
      isPrefOf_append_left _ _ _ h2 hle
    have := natToChars_pref_le j i hj hi hpre
    omega
  · push_neg at hle
    have hDi : isPrefOf (natToChars i) (natToChars i ++ R) = true := isPrefOf_append_self _ _
    have hij2 : isPrefOf (natToChars i) (natToChars j) = true :=
      isPrefOf_trans_le _ _ _ hDi h2 (by omega)
    have hdrop := isPrefOf_drop (natToChars i).length _ _ h2
    rw [List.drop_left] at hdrop
    have hlen : 0 < ((natToChars j).drop (natToChars i).length).length := by
      rw [List.length_drop]
      omega
    cases hd : (natToChars j).drop (natToChars i).length with
    | nil =>
      rw [hd] at hlen
      simp at hlen
    | cons d t =>
      have hdmem : d ∈ natToChars j := by
        apply List.mem_of_mem_drop (n := (natToChars i).length)
        rw [hd]
        exact List.mem_cons_self d t
      have hddig : d.isDigit = true := natToChars_all_digits j d hdmem
      rw [hd] at hdrop
      cases R with
      | nil => exact absurd hdrop (by simp [isPrefOf])
      | cons r rt =>
        simp only [isPrefOf, Bool.and_eq_true, decide_eq_true_eq] at hdrop
        have : digitStartB (r :: rt) = true := by
          show r.isDigit = true
          rw [← hdrop.1]
          exact hddig
        rw [hR] at this
        exact absurd this (by simp)

/-- Across-boundary condition for a chunk without at-signs. -/
theorem cond_no_at (X R nt : List Char) (hX : ∀ c ∈ X, c ≠ '@') :
    ∀ k, k < X.length → isPrefOf ('@' :: nt) (X.drop k ++ R) = true →
      ('@' :: nt).length ≤ X.length - k := by
  intro k hk hpk
  exfalso
  apply isPrefOf_at_head_false nt R (X.drop k)
    (fun c hc => hX c (List.mem_of_mem_drop hc)) ?_ hpk
  intro hcon
  have : (X.drop k).length = X.length - k := List.length_drop k X
  rw [hcon] at this
  simp at this
  omega

/-- Across-boundary condition for an intact placeholder chunk at step j. -/
theorem cond_ph (j i : ℕ) (hi1 : 1 ≤ i) (hij : i ≤ j) (hj1 : 1 ≤ j)
    (R : List Char) (hR : digitStartB R = false) :
    ∀ k, k < (phStr i).length → isPrefOf (phStr j) ((phStr i).drop k ++ R) = true →
      (phStr j).length ≤ (phStr i).length - k := by
  intro k hk hpk
  rcases Nat.eq_zero_or_pos k with rfl | hkpos
  · rcases eq_or_lt_of_le hij with rfl | hlt
    · simp
    · rw [List.drop_zero] at hpk
      exact absurd hpk (phStr_no_occurrence i j hi1 hj1 hlt R hR)
  · exfalso
    have hsub : (phStr i).drop k = ('p' :: natToChars i).drop (k - 1) := by
      show ('@' :: ('p' :: natToChars i)).drop k = _
      cases k with
      | zero => omega
      | succ k' => simp [List.drop_succ_cons]
    have hchars : ∀ c ∈ ('p' :: natToChars i), c ≠ '@' := by
      intro c hc
      rcases List.mem_cons.mp hc with rfl | hc2
      · decide
      · exact isDigit_ne_at c (natToChars_all_digits i c hc2)
    rw [hsub] at hpk
    apply isPrefOf_at_head_false ('p' :: natToChars j) R (('p' :: natToChars i).drop (k - 1))
      (fun c hc => hchars c (List.mem_of_mem_drop hc)) ?_ hpk
    intro hcon
    have hl : (('p' :: natToChars i).drop (k - 1)).length = ('p' :: natToChars i).length - (k - 1) :=
      List.length_drop _ _
    rw [hcon] at hl
    simp only [List.length_nil, List.length_cons] at hl
    simp only [phStr, List.length_cons] at hk
    omega

theorem replaceAll_ph_self (j : ℕ) (rep : List Char) :
    replaceAll (phStr j) rep (phStr j) = rep := by
  have hp : isPrefOf (phStr j) (phStr j) = true :=
    isPrefOf_of_take _ _ (by rw [List.take_length])
  show replaceAll (phStr j) rep ('@' :: ('p' :: natToChars j)) = rep
  rw [replaceAll_pos (phStr j) rep (by simp [phStr]) '@' ('p' :: natToChars j) hp]
  have hd : ('@' :: ('p' :: natToChars j)).drop (phStr j).length = [] := by
    show (phStr j).drop (phStr j).length = []
    rw [List.drop_length]
  rw [hd, replaceAll_nil]
  simp

theorem replaceAll_ph_lt (i j : ℕ) (hi1 : 1 ≤ i) (hj1 : 1 ≤ j) (hij : i < j) (rep : List Char) :
    replaceAll (phStr j) rep (phStr i) = phStr i := by
  have hp : ¬ isPrefOf (phStr j) (phStr i) = true := by
    intro hcon
    apply phStr_no_occurrence i j hi1 hj1 hij [] (by rfl)
    rw [List.append_nil]
    exact hcon
  show replaceAll (phStr j) rep ('@' :: ('p' :: natToChars i)) = '@' :: ('p' :: natToChars i)
  rw [replaceAll_neg (phStr j) rep (by simp [phStr]) '@' ('p' :: natToChars i) hp]
  have hchars : ∀ c ∈ ('p' :: natToChars i), c ≠ '@' := by
    intro c hc
    rcases List.mem_cons.mp hc with rfl | hc2
    · decide
    · exact isDigit_ne_at c (natToChars_all_digits i c hc2)
  have := replaceAll_of_head_notMem '@' ('p' :: natToChars j) rep ('p' :: natToChars i) hchars
  rw [show phStr j = '@' :: ('p' :: natToChars j) from rfl, this]

/-- One descending pass: replacing placeholder j in the state where all
higher-numbered placeholders are already substituted yields the state where
placeholder j is substituted as well. -/
theorem subst_step (lits : List (List Char)) (j : ℕ) (hj1 : 1 ≤ j) (hjn : j ≤ lits.length)
    (hlits : ∀ l ∈ lits, ∀ c ∈ l, c ≠ '@') :
    ∀ tpl, okTpl lits tpl = true →
    replaceAll (phStr j) (lits.getD (j - 1) []) (mixedRender lits j tpl) =
      mixedRender lits (j - 1) tpl := by
  intro tpl
  induction tpl with
  | nil => intro _; rfl
  | cons e r ih =>
    intro hok
    cases e with
    | seg s =>
      simp only [okTpl, Bool.and_eq_true, List.all_eq_true, decide_eq_true_eq] at hok
      obtain ⟨hs, hr⟩ := hok
      simp only [mixedRender]
      rw [replaceAll_append (phStr j) (lits.getD (j - 1) []) (by simp [phStr])
        s.length s (mixedRender lits j r) rfl
        (cond_no_at s (mixedRender lits j r) ('p' :: natToChars j) hs)]
      rw [show replaceAll (phStr j) (lits.getD (j - 1) []) s = s from
        replaceAll_of_head_notMem '@' ('p' :: natToChars j) _ s hs]
      rw [ih hr]
    | ph i =>
      simp only [okTpl, Bool.and_eq_true, List.all_eq_true, decide_eq_true_eq] at hok
      obtain ⟨⟨⟨hi1, hin⟩, hnd⟩, hr⟩ := hok
      have hndj : digitStartB (mixedRender lits j r) = false := by
        have := hnd j (List.mem_range.mpr (by omega))
        simpa using this
      simp only [mixedRender]
      rcases lt_trichotomy i j with hlt | heq | hgt
      · rw [if_neg (by omega : ¬ j < i), if_neg (by omega : ¬ j - 1 < i)]
        rw [replaceAll_append (phStr j) (lits.getD (j - 1) []) (by simp [phStr])
          (phStr i).length (phStr i) (mixedRender lits j r) rfl
          (cond_ph j i hi1 (by omega) hj1 _ hndj)]
        rw [replaceAll_ph_lt i j hi1 hj1 hlt, ih hr]
      · rw [if_neg (by omega : ¬ j < i), if_pos (by omega : j - 1 < i)]
        rw [replaceAll_append (phStr j) (lits.getD (j - 1) []) (by simp [phStr])
          (phStr i).length (phStr i) (mixedRender lits j r) rfl
          (cond_ph j i hi1 (by omega) hj1 _ hndj)]
        rw [heq, replaceAll_ph_self j _, ih hr]
      · rw [if_pos hgt, if_pos (by omega : j - 1 < i)]
        have hmemlt : i - 1 < lits.length := by omega
        have hmem : lits.getD (i - 1) [] ∈ lits := by
          rw [List.getD_eq_getElem lits [] hmemlt]
          exact List.getElem_mem hmemlt
        have hlchars : ∀ c ∈ lits.getD (i - 1) [], c ≠ '@' :=
          fun c hc => hlits _ hmem c hc
        rw [replaceAll_append (phStr j) (lits.getD (j - 1) []) (by simp [phStr])
          (lits.getD (i - 1) []).length (lits.getD (i - 1) []) (mixedRender lits j r) rfl
          (cond_no_at _ _ ('p' :: natToChars j) hlchars)]
        rw [show replaceAll (phStr j) (lits.getD (j - 1) []) (lits.getD (i - 1) []) =
          lits.getD (i - 1) [] from
          replaceAll_of_head_notMem '@' ('p' :: natToChars j) _ _ hlchars]
        rw [ih hr]

/-- Running the descending loop from index j on the corresponding mixed
state reaches the fully substituted state. -/
theorem substAux_mixed (lits : List (List Char))
    (hlits : ∀ l ∈ lits, ∀ c ∈ l, c ≠ '@') (tpl : List TplElem)
    (hok : okTpl lits tpl = true) :
    ∀ j, j ≤ lits.length →
    substAux lits j (mixedRender lits j tpl) = mixedRender lits 0 tpl := by
  intro j
  induction j with
  | zero => intro _; rfl
  | succ j ih =>
    intro hj
    show substAux lits j
      (replaceAll (phStr (j + 1)) (lits.getD j []) (mixedRender lits (j + 1) tpl)) = _
    have hstep := subst_step lits (j + 1) (by omega) hj hlits tpl hok
    rw [show j + 1 - 1 = j from rfl] at hstep
    rw [hstep]
    exact ih (by omega)

theorem mixedRender_top (lits : List (List Char)) (tpl : List TplElem)
    (hok : okTpl lits tpl = true) :
    mixedRender lits lits.length tpl = renderTpl tpl := by
  induction tpl with
  | nil => rfl
  | cons e r ih =>
    cases e with
    | seg s =>
      simp only [okTpl, Bool.and_eq_true] at hok
      simp only [mixedRender, renderTpl]
      rw [ih hok.2]
    | ph i =>
      simp only [okTpl, Bool.and_eq_true, decide_eq_true_eq] at hok
      obtain ⟨⟨⟨hi1, hin⟩, _⟩, hr⟩ := hok
      simp only [mixedRender, renderTpl]
      rw [if_neg (by omega : ¬ lits.length < i), ih hr]

theorem mixedRender_bot (lits : List (List Char)) (tpl : List TplElem)
    (hok : okTpl lits tpl = true) :
    mixedRender lits 0 tpl = renderWith lits tpl := by
  induction tpl with
  | nil => rfl
  | cons e r ih =>
    cases e with
    | seg s =>
      simp only [okTpl, Bool.and_eq_true] at hok
      simp only [mixedRender, renderWith]
      rw [ih hok.2]
    | ph i =>
      simp only [okTpl, Bool.and_eq_true, decide_eq_true_eq] at hok
      obtain ⟨⟨⟨hi1, hin⟩, _⟩, hr⟩ := hok
      simp only [mixedRender, renderWith]
      rw [if_pos (by omega : 0 < i), ih hr]

/-- Claim C3, counterexample: with template @p1 @p2 and second literal
containing the text of placeholder @p1, the descending replacement
substitutes inside the already-substituted literal, so the result is not the
template with each placeholder replaced by its own literal. -/
theorem claimC3_counterexample :
    substitute_params (renderTpl [TplElem.ph 1, TplElem.seg [' '], TplElem.ph 2])
        [['5'], ['x', '@', 'p', '1', 'y']] ≠
      renderWith [['5'], ['x', '@', 'p', '1', 'y']]
        [TplElem.ph 1, TplElem.seg [' '], TplElem.ph 2] ∧
    renderTpl [TplElem.ph 1, TplElem.seg [' '], TplElem.ph 2] =
      ['@', 'p', '1', ' ', '@', 'p', '2'] ∧
    substitute_params (renderTpl [TplElem.ph 1, TplElem.seg [' '], TplElem.ph 2])
        [['5'], ['x', '@', 'p', '1', 'y']] = ['5', ' ', 'x', '5', 'y'] ∧
    renderWith [['5'], ['x', '@', 'p', '1', 'y']]
        [TplElem.ph 1, TplElem.seg [' '], TplElem.ph 2] =
      ['5', ' ', 'x', '@', 'p', '1', 'y'] := by
  decide

/-- Claim C3 (amended): for a template decomposed into segments and 1-based
placeholders @p1..@pn and n encoded literals, the substitution replaces the
placeholders from the highest index down to the lowest, and the result is
the template with every placeholder occurrence replaced by its own literal,
provided the substitution is non-interfering: no literal and no segment
contains an at-sign, every placeholder index lies in 1..n, and no
placeholder is followed by text that starts with a digit at any stage. -/
theorem claimC3_substitution (lits : List (List Char)) (tpl : List TplElem)
    (hlits : ∀ l ∈ lits, ∀ c ∈ l, c ≠ '@')
    (hok : okTpl lits tpl = true) :
    substitute_params (renderTpl tpl) lits = renderWith lits tpl := by
  unfold substitute_params
  rw [← mixedRender_top lits tpl hok]
  rw [substAux_mixed lits hlits tpl hok lits.length le_rfl]
  exact mixedRender_bot lits tpl hok

theorem claimC3_substitution_witness :
    ((∀ l ∈ [['7'], ['a', 'b']], ∀ c ∈ l, c ≠ '@') ∧
      okTpl [['7'], ['a', 'b']]
        [TplElem.ph 1, TplElem.seg [' ', 'x'], TplElem.ph 2] = true) ∧
    substitute_params (renderTpl [TplElem.ph 1, TplElem.seg [' ', 'x'], TplElem.ph 2])
        [['7'], ['a', 'b']] =
      renderWith [['7'], ['a', 'b']]
        [TplElem.ph 1, TplElem.seg [' ', 'x'], TplElem.ph 2] :=
  ⟨⟨by decide, by decide⟩, claimC3_substitution _ _ (by decide) (by decide)⟩

/-! ### Result collector (row_writer.rs)

CompactValue mirrors the value enum; the sixteen write_<type> callbacks of
the RowWriter implementation all share one guarded shape (push the wrapped
value when a result set is open), so the event model carries the already
wrapped CompactValue in a single write event.
-/

/-- Wire values collected into result tables (row_writer.rs lines 3-17). -/
inductive CompactValue where
  | Null
  | Bool (v : Bool)
  | I64 (v : ℤ)
  | F64 (v : Float)
  | Str (v : List Char)
  | Bytes (v : List ℕ)
  | Date (unixDays : ℤ)
  | Time (nanos : ℤ)
  | DateTime (micros : ℤ)
  | DateTimeOffset (micros : ℤ) (offsetMinutes : ℤ)
  | Decimal (value : ℤ) (precision : ℕ) (scale : ℕ)
  | Guid (bytes : List ℕ)

/-- Column metadata kept per result set (row_writer.rs lines 53-56). -/
structure ColumnInfo where
  name : List Char
deriving DecidableEq, Repr

/-- Per-result-set accumulator (row_writer.rs lines 19-51). -/
structure PyRowWriter where
  col_count : ℕ
  values : List CompactValue
  current_row : List CompactValue

/-- PyRowWriter::new. -/
def PyRowWriter.new (colCount : ℕ) : PyRowWriter := ⟨colCount, [], []⟩

/-- PyRowWriter::row_count (row_writer.rs lines 34-36): integer division of
the flattened length by the column count, zero columns giving zero rows. -/
def PyRowWriter.row_count (w : PyRowWriter) : ℕ :=
  if w.col_count = 0 then 0 else w.values.length / w.col_count

/-- PyRowWriter::get (row_writer.rs lines 38-41); the source indexes the
vector directly (a panic when out of bounds), the model totalises with Null;
do_query only calls it in bounds. -/
def PyRowWriter.get (w : PyRowWriter) (row col : ℕ) : CompactValue :=
  w.values.getD (row * w.col_count + col) CompactValue.Null

/-- PyRowWriter::finish_row (row_writer.rs lines 43-45): move the current
row onto the flattened storage. -/
def PyRowWriter.finish_row (w : PyRowWriter) : PyRowWriter :=
  ⟨w.col_count, w.values ++ w.current_row, []⟩

/-- PyRowWriter::push (row_writer.rs lines 47-50). -/
def PyRowWriter.push (w : PyRowWriter) (v : CompactValue) : PyRowWriter :=
  ⟨w.col_count, w.values, w.current_row ++ [v]⟩

/-- MultiSetWriter (row_writer.rs lines 58-62). -/
structure MultiSetWriter where
  completed : List (List ColumnInfo × PyRowWriter)
  current_cols : Option (List ColumnInfo)
  current : Option PyRowWriter

/-- MultiSetWriter::new (row_writer.rs lines 65-67). -/
def MultiSetWriter.new : MultiSetWriter := ⟨[], none, none⟩

/-- MultiSetWriter::finalize (row_writer.rs lines 69-74): push any still
open result set, then return the completed list. -/
def MultiSetWriter.finalize (m : MultiSetWriter) : List (List ColumnInfo × PyRowWriter) :=
  match m.current_cols, m.current with
  | some cols, some w => m.completed ++ [(cols, w)]
  | _, _ => m.completed

/-- Row-sink callback events delivered by the protocol client during one
batch (the RowWriter trait): column metadata, one typed cell value, a row
boundary, or an informational message. -/
inductive SinkEvent where
  | on_metadata (columns : List ColumnInfo)
  | write (v : CompactValue)
  | on_row_done
  | on_info (number : ℕ) (message : List Char)

/-- One callback step of the collector (row_writer.rs lines 77-109):
on_metadata closes any open set and opens a fresh one sized to the column
count; write and on_row_done act on the open writer and are silent no-ops
otherwise; on_info is discarded. -/
def MultiSetWriter.step (m : MultiSetWriter) (e : SinkEvent) : MultiSetWriter :=
  match e with
  | SinkEvent.on_metadata columns =>
    match m.current_cols, m.current with
    | some cols, some w =>
      ⟨m.completed ++ [(cols, w)], some columns, some (PyRowWriter.new columns.length)⟩
    | _, _ => ⟨m.completed, some columns, some (PyRowWriter.new columns.length)⟩
  | SinkEvent.write v =>
    match m.current with
    | some w => ⟨m.completed, m.current_cols, some (w.push v)⟩
    | none => m
  | SinkEvent.on_row_done =>
    match m.current with
    | some w => ⟨m.completed, m.current_cols, some w.finish_row⟩
    | none => m
  | SinkEvent.on_info _ _ => m

/-- Run a whole batch of callbacks from the fresh collector. -/
def runEvents (evs : List SinkEvent) : MultiSetWriter :=
  evs.foldl MultiSetWriter.step MultiSetWriter.new

/-- Is the event a metadata event? -/
def isMetaB : SinkEvent → Bool
  | SinkEvent.on_metadata _ => true
  | _ => false

/-- Specification-side accumulation of one segment (the events of one result
set): fold the writes into a current row, commit it at each row boundary,
and drop any uncommitted tail. -/
def segFoldAcc (acc : List CompactValue × List CompactValue) :
    List SinkEvent → List CompactValue × List CompactValue
  | [] => acc
  | SinkEvent.write v :: r => segFoldAcc (acc.1, acc.2 ++ [v]) r
  | SinkEvent.on_row_done :: r => segFoldAcc (acc.1 ++ acc.2, []) r
  | SinkEvent.on_metadata _ :: r => segFoldAcc acc r
  | SinkEvent.on_info _ _ :: r => segFoldAcc acc r

/-- Committed cell values of one segment, row-major. -/
def segValues (evs : List SinkEvent) : List CompactValue := (segFoldAcc ([], []) evs).1

/-- Specification-side table list: one table per metadata event, carrying
that metadata and the committed values of the events up to the next
metadata; events before the first metadata contribute nothing. -/
def specTablesFuel : ℕ → List SinkEvent → List (List ColumnInfo × List CompactValue)
  | 0, _ => []
  | f + 1, [] => []
  | f + 1, SinkEvent.on_metadata cols :: r =>
    (cols, segValues (r.takeWhile (fun e => !isMetaB e))) ::
      specTablesFuel f (r.dropWhile (fun e => !isMetaB e))
  | f + 1, SinkEvent.write _ :: r => specTablesFuel f r
  | f + 1, SinkEvent.on_row_done :: r => specTablesFuel f r
  | f + 1, SinkEvent.on_info _ _ :: r => specTablesFuel f r

def specTables (evs : List SinkEvent) : List (List ColumnInfo × List CompactValue) :=
  specTablesFuel evs.length evs

/-- The writer produced by one segment of events on a fresh writer. -/
def segWriter (k : ℕ) (evs : List SinkEvent) : PyRowWriter :=
  ⟨k, segValues evs, (segFoldAcc ([], []) evs).2⟩

/-- Specification-side tables carrying the full writer state. -/
def specTablesW : ℕ → List SinkEvent → List (List ColumnInfo × PyRowWriter)
  | 0, _ => []
  | _ + 1, [] => []
  | f + 1, SinkEvent.on_metadata cols :: r =>
    (cols, segWriter cols.length (r.takeWhile (fun e => !isMetaB e))) ::
      specTablesW f (r.dropWhile (fun e => !isMetaB e))
  | f + 1, SinkEvent.write _ :: r => specTablesW f r
  | f + 1, SinkEvent.on_row_done :: r => specTablesW f r
  | f + 1, SinkEvent.on_info _ _ :: r => specTablesW f r

theorem segFoldAcc_first : ∀ (evs : List SinkEvent) (A R : List CompactValue),
    (segFoldAcc (A, R) evs).1 = A ++ (segFoldAcc ([], R) evs).1 ∧
    (segFoldAcc (A, R) evs).2 = (segFoldAcc ([], R) evs).2 := by
  intro evs
  induction evs with
  | nil => intro A R; simp [segFoldAcc]
  | cons e r ih =>
    intro A R
    cases e with
    | write v => exact ih A (R ++ [v])
    | on_row_done =>
      refine ⟨?_, ?_⟩
      · show (segFoldAcc (A ++ R, []) r).1 = A ++ (segFoldAcc ([] ++ R, []) r).1
        rw [List.nil_append, (ih (A ++ R) []).1, (ih R []).1, List.append_assoc]
      · show (segFoldAcc (A ++ R, []) r).2 = (segFoldAcc ([] ++ R, []) r).2
        rw [List.nil_append, (ih (A ++ R) []).2, (ih R []).2]
    | on_metadata cols => exact ih A R
    | on_info n msg => exact ih A R

/-- Running non-metadata events on an open result set only feeds the open
writer. -/
theorem run_no_meta : ∀ (evs : List SinkEvent), (∀ e ∈ evs, isMetaB e = false) →
    ∀ (L : List (List ColumnInfo × PyRowWriter)) (c : List ColumnInfo) (w : PyRowWriter),
    evs.foldl MultiSetWriter.step ⟨L, some c, some w⟩ =
      ⟨L, some c, some ⟨w.col_count, w.values ++ (segFoldAcc ([], w.current_row) evs).1,
        (segFoldAcc ([], w.current_row) evs).2⟩⟩ := by
  intro evs
  induction evs with
  | nil =>
    intro _ L c w
    show (⟨L, some c, some w⟩ : MultiSetWriter) = _
    simp [segFoldAcc]
  | cons e r ih =>
    intro h L c w
    have hr : ∀ x ∈ r, isMetaB x = false := fun x hx => h x (List.mem_cons_of_mem e hx)
    cases e with
    | on_metadata cols =>
      have := h (SinkEvent.on_metadata cols) (List.mem_cons_self _ _)
      simp [isMetaB] at this
    | write v =>
      show List.foldl MultiSetWriter.step ⟨L, some c, some (w.push v)⟩ r = _
      rw [ih hr L c (w.push v)]
      rfl
    | on_row_done =>
      show List.foldl MultiSetWriter.step ⟨L, some c, some w.finish_row⟩ r = _
      rw [ih hr L c w.finish_row]
      show (⟨L, some c, some ⟨w.col_count, (w.values ++ w.current_row) ++
        (segFoldAcc ([], []) r).1, (segFoldAcc ([], []) r).2⟩⟩ : MultiSetWriter) = _
      have hval : (w.values ++ w.current_row) ++ (segFoldAcc ([], []) r).1 =
          w.values ++ (segFoldAcc ([], w.current_row) (SinkEvent.on_row_done :: r)).1 := by
        show _ = w.values ++ (segFoldAcc ([] ++ w.current_row, []) r).1
        rw [List.nil_append, (segFoldAcc_first r w.current_row []).1, List.append_assoc]
      have hcur : (segFoldAcc ([], []) r).2 =
          (segFoldAcc ([], w.current_row) (SinkEvent.on_row_done :: r)).2 := by
        show _ = (segFoldAcc ([] ++ w.current_row, []) r).2
        rw [List.nil_append, (segFoldAcc_first r w.current_row []).2]
      rw [hval, hcur]
    | on_info n msg =>
      show List.foldl MultiSetWriter.step ⟨L, some c, some w⟩ r = _
      exact ih hr L c w

/-- A non-metadata event on the closed (pre-first-metadata) state is a
no-op. -/
theorem step_closed_no_meta (L : List (List ColumnInfo × PyRowWriter)) (e : SinkEvent)
    (h : isMetaB e = false) :
    MultiSetWriter.step ⟨L, none, none⟩ e = ⟨L, none, none⟩ := by
  cases e with
  | on_metadata cols => simp [isMetaB] at h
  | write v => rfl
  | on_row_done => rfl
  | on_info n msg => rfl

theorem dropWhile_len_le (p : SinkEvent → Bool) :
    ∀ l : List SinkEvent, (l.dropWhile p).length ≤ l.length := by
  intro l
  induction l with
  | nil => simp
  | cons e r ih =>
    rw [List.dropWhile_cons]
    by_cases hp : p e = true
    · rw [if_pos hp]
      simp only [List.length_cons]
      omega
    · rw [if_neg hp]

theorem dropWhile_head_false {p : SinkEvent → Bool} :
    ∀ (l : List SinkEvent) (x : SinkEvent) (xs : List SinkEvent),
    l.dropWhile p = x :: xs → p x = false := by
  intro l
  induction l with
  | nil => intro x xs h; simp [List.dropWhile] at h
  | cons e r ih =>
    intro x xs h
    rw [List.dropWhile_cons] at h
    by_cases hp : p e = true
    · rw [if_pos hp] at h
      exact ih x xs h
    · rw [if_neg hp] at h
      cases h
      simpa using hp

theorem specTablesW_congr : ∀ f₁ f₂ (l : List SinkEvent), l.length ≤ f₁ → l.length ≤ f₂ →
    specTablesW f₁ l = specTablesW f₂ l := by
  intro f₁
  induction f₁ with
  | zero =>
    intro f₂ l h1 h2
    have : l = [] := by
      cases l with
      | nil => rfl
      | cons e r => simp at h1
    rw [this]
    cases f₂ <;> rfl
  | succ f ih =>
    intro f₂ l h1 h2
    cases l with
    | nil => cases f₂ <;> rfl
    | cons e r =>
      cases f₂ with
      | zero => simp at h2
      | succ g =>
        have hrl : r.length ≤ f := by simp only [List.length_cons] at h1; omega
        have hrg : r.length ≤ g := by simp only [List.length_cons] at h2; omega
        have hdl : (r.dropWhile (fun e => !isMetaB e)).length ≤ f :=
          le_trans (dropWhile_len_le _ _) hrl
        have hdg : (r.dropWhile (fun e => !isMetaB e)).length ≤ g :=
          le_trans (dropWhile_len_le _ _) hrg
        cases e with
        | on_metadata cols =>
          show (cols, _) :: specTablesW f _ = (cols, _) :: specTablesW g _
          rw [ih g _ hdl hdg]
        | write v => exact ih g r hrl hrg
        | on_row_done => exact ih g r hrl hrg
        | on_info n msg => exact ih g r hrl hrg

/-- Running a batch from an open result set with a fresh writer: the first
table collects the events up to the next metadata, the rest recurse. -/
theorem run_open : ∀ n, ∀ evs : List SinkEvent, evs.length ≤ n →
    ∀ (L : List (List ColumnInfo × PyRowWriter)) (c : List ColumnInfo) (k : ℕ),
    (evs.foldl MultiSetWriter.step ⟨L, some c, some (PyRowWriter.new k)⟩).finalize =
      L ++ (c, segWriter k (evs.takeWhile (fun e => !isMetaB e))) ::
        specTablesW (evs.dropWhile (fun e => !isMetaB e)).length
          (evs.dropWhile (fun e => !isMetaB e)) := by
  intro n
  induction n with
  | zero =>
    intro evs h L c k
    have : evs = [] := by
      cases evs with
      | nil => rfl
      | cons e r => simp at h
    subst this
    show (⟨L, some c, some (PyRowWriter.new k)⟩ : MultiSetWriter).finalize = _
    show L ++ [(c, PyRowWriter.new k)] = _
    rfl
  | succ n ih =>
    intro evs h L c k
    have hsplit : evs.takeWhile (fun e => !isMetaB e) ++
        evs.dropWhile (fun e => !isMetaB e) = evs := List.takeWhile_append_dropWhile _ _
    have hpre : ∀ e ∈ evs.takeWhile (fun e => !isMetaB e), isMetaB e = false := by
      intro e he
      have := List.mem_takeWhile_imp he
      simpa using this
    have hfold : evs.foldl MultiSetWriter.step ⟨L, some c, some (PyRowWriter.new k)⟩ =
        (evs.dropWhile (fun e => !isMetaB e)).foldl MultiSetWriter.step
          ⟨L, some c, some (segWriter k (evs.takeWhile (fun e => !isMetaB e)))⟩ := by
      conv =>
        lhs
        rw [← hsplit]
      rw [List.foldl_append]
      rw [run_no_meta _ hpre L c (PyRowWriter.new k)]
      rfl
    rw [hfold]
    cases hdrop : evs.dropWhile (fun e => !isMetaB e) with
    | nil =>
      show (⟨L, some c, some (segWriter k (evs.takeWhile (fun e => !isMetaB e)))⟩ :
        MultiSetWriter).finalize = _
      show L ++ [(c, segWriter k (evs.takeWhile (fun e => !isMetaB e)))] = _
      rfl
    | cons e rest =>
      have hmeta : isMetaB e = true := by
        have := dropWhile_head_false _ _ _ hdrop
        simpa using this
      cases e with
      | on_metadata cols =>
        show ((SinkEvent.on_metadata cols :: rest).foldl MultiSetWriter.step _).finalize = _
        rw [List.foldl_cons]
        have hstep : MultiSetWriter.step
            ⟨L, some c, some (segWriter k (evs.takeWhile (fun e => !isMetaB e)))⟩
            (SinkEvent.on_metadata cols) =
            ⟨L ++ [(c, segWriter k (evs.takeWhile (fun e => !isMetaB e)))],
              some cols, some (PyRowWriter.new cols.length)⟩ := rfl
        rw [hstep]
        have hlen : rest.length ≤ n := by
          have h1 : (evs.dropWhile (fun e => !isMetaB e)).length ≤ evs.length :=
            dropWhile_len_le _ _
          rw [hdrop] at h1
          simp only [List.length_cons] at h1
          omega
        rw [ih rest hlen _ cols cols.length]
        rw [List.append_assoc]
        congr 1
        show [(c, _)] ++ _ = (c, _) :: _
        rw [List.singleton_append]
        congr 1
        show (cols, segWriter cols.length (rest.takeWhile (fun e => !isMetaB e))) ::
            specTablesW (rest.dropWhile (fun e => !isMetaB e)).length
              (rest.dropWhile (fun e => !isMetaB e)) =
          specTablesW (rest.length + 1) (SinkEvent.on_metadata cols :: rest)
        show _ = (cols, segWriter cols.length (rest.takeWhile (fun e => !isMetaB e))) ::
          specTablesW rest.length (rest.dropWhile (fun e => !isMetaB e))
        congr 1
        exact specTablesW_congr _ _ _ le_rfl (dropWhile_len_le _ _)
      | write v => simp [isMetaB] at hmeta
      | on_row_done => simp [isMetaB] at hmeta
      | on_info m msg => simp [isMetaB] at hmeta

/-- Finalize after a full batch from the fresh collector equals the
specification-side table list. -/
theorem run_closed : ∀ n, ∀ evs : List SinkEvent, evs.length ≤ n →
    (runEvents evs).finalize = specTablesW evs.length evs := by
  intro n
  induction n with
  | zero =>
    intro evs h
    have : evs = [] := by
      cases evs with
      | nil => rfl
      | cons e r => simp at h
    subst this
    rfl
  | succ n ih =>
    intro evs h
    cases evs with
    | nil => rfl
    | cons e r =>
      have hrl : r.length ≤ n := by simp only [List.length_cons] at h; omega
      cases e with
      | on_metadata cols =>
        show ((r.foldl MultiSetWriter.step
          ⟨[], some cols, some (PyRowWriter.new cols.length)⟩)).finalize = _
        rw [run_open n r hrl [] cols cols.length]
        rw [List.nil_append]
        show _ = (cols, segWriter cols.length (r.takeWhile (fun e => !isMetaB e))) ::
          specTablesW r.length (r.dropWhile (fun e => !isMetaB e))
        congr 1
        exact specTablesW_congr _ _ _ le_rfl (dropWhile_len_le _ _)
      | write v =>
        show ((r.foldl MultiSetWriter.step ⟨[], none, none⟩)).finalize = specTablesW r.length r
        exact ih r hrl
      | on_row_done =>
        show ((r.foldl MultiSetWriter.step ⟨[], none, none⟩)).finalize = specTablesW r.length r
        exact ih r hrl
      | on_info m msg =>
        show ((r.foldl MultiSetWriter.step ⟨[], none, none⟩)).finalize = specTablesW r.length r
        exact ih r hrl

theorem specTablesW_map : ∀ f (l : List SinkEvent),
    (specTablesW f l).map (fun t => (t.1, t.2.col_count, t.2.values)) =
      (specTablesFuel f l).map (fun t => (t.1, t.1.length, t.2)) := by
  intro f
  induction f with
  | zero => intro l; rfl
  | succ f ih =>
    intro l
    cases l with
    | nil => rfl
    | cons e r =>
      cases e with
      | on_metadata cols =>
        show ((cols, segWriter cols.length (r.takeWhile (fun e => !isMetaB e))) ::
          specTablesW f (r.dropWhile (fun e => !isMetaB e))).map _ =
          ((cols, segValues (r.takeWhile (fun e => !isMetaB e))) ::
          specTablesFuel f (r.dropWhile (fun e => !isMetaB e))).map _
        simp only [List.map_cons]
        rw [ih]
        rfl
      | write v => exact ih r
      | on_row_done => exact ih r
      | on_info n msg => exact ih r

theorem specTablesW_length : ∀ f (l : List SinkEvent), l.length ≤ f →
    (specTablesW f l).length = l.countP isMetaB := by
  intro f
  induction f with
  | zero =>
    intro l h
    have : l = [] := by
      cases l with
      | nil => rfl
      | cons e r => simp at h
    subst this
    rfl
  | succ f ih =>
    intro l h
    cases l with
    | nil => rfl
    | cons e r =>
      have hrl : r.length ≤ f := by simp only [List.length_cons] at h; omega
      cases e with
      | on_metadata cols =>
        show ((cols, _) :: specTablesW f (r.dropWhile (fun e => !isMetaB e))).length = _
        rw [List.length_cons,
          ih (r.dropWhile (fun e => !isMetaB e)) (le_trans (dropWhile_len_le _ _) hrl)]
        rw [List.countP_cons_of_pos isMetaB _ (by rfl)]
        have hsplit := List.takeWhile_append_dropWhile (p := fun e => !isMetaB e) (l := r)
        have hcnt : r.countP isMetaB =
            (r.takeWhile (fun e => !isMetaB e)).countP isMetaB +
            (r.dropWhile (fun e => !isMetaB e)).countP isMetaB := by
          conv =>
            lhs
            rw [← hsplit]
          rw [List.countP_append]
        have hz : (r.takeWhile (fun e => !isMetaB e)).countP isMetaB = 0 := by
          rw [List.countP_eq_zero]
          intro a ha
          have := List.mem_takeWhile_imp ha
          simp only [Bool.not_eq_true'] at this
          simp [this]
        omega
      | write v =>
        show (specTablesW f r).length = _
        rw [ih r hrl, List.countP_cons_of_neg isMetaB _ (by simp [isMetaB])]
      | on_row_done =>
        show (specTablesW f r).length = _
        rw [ih r hrl, List.countP_cons_of_neg isMetaB _ (by simp [isMetaB])]
      | on_info n msg =>
        show (specTablesW f r).length = _
        rw [ih r hrl, List.countP_cons_of_neg isMetaB _ (by simp [isMetaB])]

/-- Claim C5: for every sequence of row-sink callback events, the finalized
tables are, in emission order, one table per on_metadata call, each sized to
its metadata column count and holding exactly the row-major values of the
rows committed between that metadata and the next; the table count equals
the number of on_metadata calls, so a sequence with no metadata yields zero
tables. -/
theorem claimC5_collector (evs : List SinkEvent) :
    ((runEvents evs).finalize).map (fun t => (t.1, t.2.col_count, t.2.values)) =
      (specTables evs).map (fun t => (t.1, t.1.length, t.2)) ∧
    ((runEvents evs).finalize).length = evs.countP isMetaB := by
  rw [run_closed evs.length evs le_rfl]
  exact ⟨specTablesW_map evs.length evs, specTablesW_length evs.length evs le_rfl⟩

/-- Claim C10: write and row-boundary callbacks arriving before the first
metadata of a batch are silent no-ops: they leave the collector in its
initial state and contribute nothing to the finalized tables. -/
theorem claimC10_pre_metadata_noop (pre evs : List SinkEvent)
    (h : ∀ e ∈ pre, isMetaB e = false) :
    runEvents (pre ++ evs) = runEvents evs ∧ runEvents pre = MultiSetWriter.new := by
  have hclosed : ∀ l : List SinkEvent, (∀ e ∈ l, isMetaB e = false) →
      l.foldl MultiSetWriter.step MultiSetWriter.new = MultiSetWriter.new := by
    intro l
    induction l with
    | nil => intro _; rfl
    | cons e r ih =>
      intro hl
      show r.foldl MultiSetWriter.step (MultiSetWriter.step MultiSetWriter.new e) = _
      rw [show MultiSetWriter.step MultiSetWriter.new e = MultiSetWriter.new from
        step_closed_no_meta [] e (hl e (List.mem_cons_self e r))]
      exact ih (fun x hx => hl x (List.mem_cons_of_mem e hx))
  constructor
  · show (pre ++ evs).foldl MultiSetWriter.step MultiSetWriter.new = _
    rw [List.foldl_append, hclosed pre h]
    rfl
  · exact hclosed pre h

theorem claimC10_pre_metadata_noop_witness :
    (∀ e ∈ [SinkEvent.write (CompactValue.I64 7), SinkEvent.on_row_done],
      isMetaB e = false) ∧
    (runEvents ([SinkEvent.write (CompactValue.I64 7), SinkEvent.on_row_done] ++
        [SinkEvent.on_metadata [⟨['a']⟩]]) =
      runEvents [SinkEvent.on_metadata [⟨['a']⟩]] ∧
    runEvents [SinkEvent.write (CompactValue.I64 7), SinkEvent.on_row_done] =
      MultiSetWriter.new) :=
  ⟨by decide, claimC10_pre_metadata_noop _ _ (by decide)⟩

/-! ### Query result selection (lib.rs, do_query, lines 121-144) -/

/-- Flattened row-major copy of a writer, as built by the do_query loop:
one get per row index and column index in order. -/
def flattenWriter (w : PyRowWriter) : List CompactValue :=
  (List.range w.row_count).flatMap
    (fun r => (List.range w.col_count).map (fun c => w.get r c))

/-- do_query result shaping (lib.rs lines 128-143): scan the finalized sets
in order, skip tables with empty column metadata, and return the first
remaining table as column names, flattened values, row count and column
count; None when every table is skipped. -/
def do_query :
    List (List ColumnInfo × PyRowWriter) →
      Option (List (List Char) × List CompactValue × ℕ × ℕ)
  | [] => none
  | (cols, w) :: rest =>
    if cols = [] then do_query rest
    else some (cols.map (fun c => c.name), flattenWriter w, w.row_count, w.col_count)

theorem specTablesW_col_count : ∀ f (l : List SinkEvent),
    ∀ t ∈ specTablesW f l, t.1.length = t.2.col_count := by
  intro f
  induction f with
  | zero =>
    intro l t ht
    simp [specTablesW] at ht
  | succ f ih =>
    intro l t ht
    cases l with
    | nil => simp [specTablesW] at ht
    | cons e r =>
      cases e with
      | on_metadata cols =>
        rcases List.mem_cons.mp ht with rfl | h2
        · rfl
        · exact ih _ t h2
      | write v => exact ih r t ht
      | on_row_done => exact ih r t ht
      | on_info n msg => exact ih r t ht

/-- Every finalized table carries column metadata whose length equals its
writer's column count. -/
theorem finalize_col_count (evs : List SinkEvent) :
    ∀ t ∈ (runEvents evs).finalize, t.1.length = t.2.col_count := by
  rw [run_closed evs.length evs le_rfl]
  exact specTablesW_col_count evs.length evs

/-- The do_query scan returns exactly the first table with a nonzero column
count, shaped for the caller. -/
theorem do_query_eq_find (tables : List (List ColumnInfo × PyRowWriter))
    (hinv : ∀ t ∈ tables, t.1.length = t.2.col_count) :
    do_query tables = (tables.find? (fun t => decide (t.2.col_count ≠ 0))).map
      (fun t => (t.1.map (fun c => c.name), flattenWriter t.2, t.2.row_count,
        t.2.col_count)) := by
  induction tables with
  | nil => rfl
  | cons t rest ih =>
    obtain ⟨cols, w⟩ := t
    have hinvh : cols.length = w.col_count := hinv (cols, w) (List.mem_cons_self _ _)
    show (if cols = [] then do_query rest else _) = _
    by_cases hc : cols = []
    · rw [if_pos hc]
      rw [List.find?_cons_of_neg rest (by
        simp only [decide_eq_true_eq, Decidable.not_not]
        rw [← hinvh, hc]
        rfl)]
      exact ih (fun x hx => hinv x (List.mem_cons_of_mem _ hx))
    · rw [if_neg hc]
      rw [List.find?_cons_of_pos rest (by
        simp only [decide_eq_true_eq]
        rw [← hinvh]
        simpa using hc)]
      rfl

/-- Claim C4: for every batch, do_query returns the first finalized table in
emission order whose column count is nonzero (zero-column tables are
skipped), and returns None when no such table exists, in particular when the
batch produced no tables at all. -/
theorem claimC4_query_first (evs : List SinkEvent) :
    do_query ((runEvents evs).finalize) =
      (((runEvents evs).finalize).find? (fun t => decide (t.2.col_count ≠ 0))).map
        (fun t => (t.1.map (fun c => c.name), flattenWriter t.2, t.2.row_count,
          t.2.col_count)) :=
  do_query_eq_find _ (finalize_col_count evs)

theorem flatten_length (R C : ℕ) (g : ℕ → ℕ → CompactValue) :
    ((List.range R).flatMap (fun r => (List.range C).map (g r))).length = R * C := by
  induction R with
  | zero => simp
  | succ R ih =>
    rw [List.range_succ, List.flatMap_append, List.length_append, ih]
    simp only [List.flatMap_cons, List.flatMap_nil, List.append_nil, List.length_map,
      List.length_range]
    ring

/-- Claim C9: every result table surfaced by do_query satisfies the
invariant that its flattened value list has length rows times columns and
that its column count is strictly positive, for every possible callback
sequence including irregular ones. -/
theorem claimC9_surfaced_invariant (evs : List SinkEvent)
    (cols : List (List Char)) (vals : List CompactValue) (rows colsN : ℕ)
    (h : do_query ((runEvents evs).finalize) = some (cols, vals, rows, colsN)) :
    vals.length = rows * colsN ∧ 0 < colsN := by
  rw [do_query_eq_find _ (finalize_col_count evs)] at h
  cases hf : ((runEvents evs).finalize).find? (fun t => decide (t.2.col_count ≠ 0)) with
  | none =>
    rw [hf] at h
    simp at h
  | some t =>
    rw [hf] at h
    simp only [Option.map_some', Option.some_inj, Prod.mk.injEq] at h
    obtain ⟨h1, h2, h3, h4⟩ := h
    have hp := List.find?_some hf
    simp only [decide_eq_true_eq] at hp
    constructor
    · rw [← h2, ← h3, ← h4]
      exact flatten_length t.2.row_count t.2.col_count (fun r c => t.2.get r c)
    · rw [← h4]
      omega

theorem claimC9_surfaced_invariant_witness :
    do_query ((runEvents [SinkEvent.on_metadata [⟨['a']⟩],
        SinkEvent.write (CompactValue.I64 7), SinkEvent.on_row_done]).finalize) =
      some ([['a']], [CompactValue.I64 7], 1, 1) ∧
    (([CompactValue.I64 7] : List CompactValue).length = 1 * 1 ∧ 0 < 1) :=
  ⟨rfl, claimC9_surfaced_invariant
    [SinkEvent.on_metadata [⟨['a']⟩], SinkEvent.write (CompactValue.I64 7),
      SinkEvent.on_row_done] [['a']] [CompactValue.I64 7] 1 1 rfl⟩

/-! ### Statement execution (lib.rs, do_execute, lines 146-180)

The model abstracts the connection and protocol layers into a batch oracle
mapping the submitted SQL text to the finalized tables of its run; the
claim concerns the text shaping around that call.
-/

/-- ASCII whitespace, the model of char::is_whitespace used by str::trim. -/
def wsChar (c : Char) : Bool :=
  decide (c = ' ') || decide (c = '\t') || decide (c = '\n') || decide (c = '\r')

/-- Model of str::trim: strip whitespace from both ends. -/
def trimChars (s : List Char) : List Char :=
  ((s.dropWhile wsChar).reverse.dropWhile wsChar).reverse

/-- Model of str::to_uppercase restricted to ASCII letters. -/
def toUpperChars (s : List Char) : List Char := s.map Char.toUpper

def insertKW : List Char := ['I', 'N', 'S', 'E', 'R', 'T', ' ']

def updateKW : List Char := ['U', 'P', 'D', 'A', 'T', 'E', ' ']

def deleteKW : List Char := ['D', 'E', 'L', 'E', 'T', 'E', ' ']

def mergeKW : List Char := ['M', 'E', 'R', 'G', 'E', ' ']

/-- DML detection of do_execute (lib.rs lines 148-152): the trimmed,
uppercased text starts with one of the four keywords, each followed by a
space. -/
def needs_rowcount (sql : List Char) : Bool :=
  isPrefOf insertKW (toUpperChars (trimChars sql)) ||
  isPrefOf updateKW (toUpperChars (trimChars sql)) ||
  isPrefOf deleteKW (toUpperChars (trimChars sql)) ||
  isPrefOf mergeKW (toUpperChars (trimChars sql))

/-- The sentinel column name of the rowcount echo. -/
def rcName : List Char := ['_', '_', 'r', 'c', '_', '_']

/-- The appended statement text (lib.rs line 155). -/
def rowcountSuffix : List Char :=
  ['\n', 'S', 'E', 'L', 'E', 'C', 'T', ' ', '@', '@', 'R', 'O', 'W', 'C', 'O', 'U',
   'N', 'T', ' ', 'A', 'S', ' ', '_', '_', 'r', 'c', '_', '_']

/-- The batch text actually submitted (lib.rs lines 154-158). -/
def batchSql (sql : List Char) : List Char :=
  if needs_rowcount sql = true then sql ++ rowcountSuffix else sql

def okMsg : List Char := ['O', 'K']

def affectedSuffix : List Char :=
  [' ', 'r', 'o', 'w', '(', 's', ')', ' ', 'a', 'f', 'f', 'e', 'c', 't', 'e', 'd']

/-- Signed decimal rendering, the model of i64 formatting. -/
def intToChars (v : ℤ) : List Char :=
  if v < 0 then '-' :: natToChars v.natAbs else natToChars v.natAbs

/-- One iteration of the rowcount scan (lib.rs lines 167-173): a table with
exactly one column named __rc__ and at least one row overwrites the counter
with its first cell when that cell is an integer. -/
def rcScanStep (rc : ℤ) (t : List ColumnInfo × PyRowWriter) : ℤ :=
  if t.1.length = 1 ∧ (t.1.headD ⟨[]⟩).name = rcName ∧ 0 < t.2.row_count then
    match t.2.get 0 0 with
    | CompactValue.I64 v => v
    | _ => rc
  else rc

/-- do_execute (lib.rs lines 146-180) over the batch oracle: append the
rowcount echo for DML, scan the finalized tables for the counter, and shape
the message. -/
def do_execute (batch : List Char → List (List ColumnInfo × PyRowWriter))
    (sql : List Char) : List Char :=
  if needs_rowcount sql = true then
    intToChars ((batch (batchSql sql)).foldl rcScanStep 0) ++ affectedSuffix
  else okMsg

/-- DML detection as worded by claim C2: the text begins with the keyword
itself, with no requirement of a following space. Kept for the refinement
comparison. -/
def needs_rowcount_claimed (sql : List Char) : Bool :=
  isPrefOf ['I', 'N', 'S', 'E', 'R', 'T'] (toUpperChars (trimChars sql)) ||
  isPrefOf ['U', 'P', 'D', 'A', 'T', 'E'] (toUpperChars (trimChars sql)) ||
  isPrefOf ['D', 'E', 'L', 'E', 'T', 'E'] (toUpperChars (trimChars sql)) ||
  isPrefOf ['M', 'E', 'R', 'G', 'E'] (toUpperChars (trimChars sql))

/-- Rowcount extraction as worded by claim C2: the table matching exactly
one column named with the sentinel and exactly one row; zero when absent or
not an integer (the claim leaves those cases unspecified; the convention
here only matters for the comparison). Kept for the refinement
comparison. -/
def rcScanClaimed (sets : List (List ColumnInfo × PyRowWriter)) : ℤ :=
  match sets.find? (fun t => decide (t.1.length = 1) &&
      decide ((t.1.headD ⟨[]⟩).name = rcName) && decide (t.2.row_count = 1)) with
  | some t =>
    match t.2.get 0 0 with
    | CompactValue.I64 v => v
    | _ => 0
  | none => 0

/-- do_execute as worded by claim C2. Kept for the refinement comparison. -/
def do_execute_claimed (batch : List Char → List (List ColumnInfo × PyRowWriter))
    (sql : List Char) : List Char :=
  if needs_rowcount_claimed sql = true then
    intToChars (rcScanClaimed (batch (sql ++ rowcountSuffix))) ++ affectedSuffix
  else okMsg

/-- Claim C2, counterexample: the bare word INSERT begins with INSERT but
not with the keyword-plus-space the code tests, so the code answers OK while
the claimed behavior is a rows-affected message. -/
theorem claimC2_counterexample :
    do_execute (fun _ => []) ['I', 'N', 'S', 'E', 'R', 'T'] ≠
      do_execute_claimed (fun _ => []) ['I', 'N', 'S', 'E', 'R', 'T'] ∧
    do_execute (fun _ => []) ['I', 'N', 'S', 'E', 'R', 'T'] = okMsg ∧
    do_execute_claimed (fun _ => []) ['I', 'N', 'S', 'E', 'R', 'T'] =
      '0' :: affectedSuffix := by
  decide

/-- Does the table match the rowcount-echo shape the code scans for, with an
integer first cell? -/
def rcMatchB (t : List ColumnInfo × PyRowWriter) : Bool :=
  decide (t.1.length = 1) && decide ((t.1.headD ⟨[]⟩).name = rcName) &&
  decide (0 < t.2.row_count) &&
  (match t.2.get 0 0 with
   | CompactValue.I64 _ => true
   | _ => false)

def rcValue (t : List ColumnInfo × PyRowWriter) : ℤ :=
  match t.2.get 0 0 with
  | CompactValue.I64 v => v
  | _ => 0

/-- Specification-side rowcount: of the tables with exactly one column named
with the sentinel, at least one row and an integer first cell, the last one
in emission order provides the counter; zero when there is none. -/
def rcScanSpec (sets : List (List ColumnInfo × PyRowWriter)) : ℤ :=
  match sets.reverse.find? rcMatchB with
  | some t => rcValue t
  | none => 0

/-- Specification-side do_execute for the amended claim. -/
def do_execute_spec (batch : List Char → List (List ColumnInfo × PyRowWriter))
    (sql : List Char) : List Char :=
  if needs_rowcount sql = true then
    intToChars (rcScanSpec (batch (sql ++ rowcountSuffix))) ++ affectedSuffix
  else okMsg

theorem rcScanStep_pos (rc : ℤ) (t : List ColumnInfo × PyRowWriter)
    (h : rcMatchB t = true) : rcScanStep rc t = rcValue t := by
  simp only [rcMatchB, Bool.and_eq_true, decide_eq_true_eq] at h
  obtain ⟨⟨⟨h1, h2⟩, h3⟩, h4⟩ := h
  unfold rcScanStep rcValue
  rw [if_pos ⟨h1, h2, h3⟩]
  cases hv : t.2.get 0 0 with
  | I64 v => rfl
  | Null => rw [hv] at h4; simp at h4
  | Bool v => rw [hv] at h4; simp at h4
  | F64 v => rw [hv] at h4; simp at h4
  | Str v => rw [hv] at h4; simp at h4
  | Bytes v => rw [hv] at h4; simp at h4
  | Date v => rw [hv] at h4; simp at h4
  | Time v => rw [hv] at h4; simp at h4
  | DateTime v => rw [hv] at h4; simp at h4
  | DateTimeOffset v o => rw [hv] at h4; simp at h4
  | Decimal v p s => rw [hv] at h4; simp at h4
  | Guid v => rw [hv] at h4; simp at h4

theorem rcScanStep_neg (rc : ℤ) (t : List ColumnInfo × PyRowWriter)
    (h : ¬ rcMatchB t = true) : rcScanStep rc t = rc := by
  unfold rcScanStep
  by_cases hc : t.1.length = 1 ∧ (t.1.headD ⟨[]⟩).name = rcName ∧ 0 < t.2.row_count
  · rw [if_pos hc]
    cases hv : t.2.get 0 0 with
    | I64 v =>
      exfalso
      apply h
      simp only [rcMatchB, Bool.and_eq_true, decide_eq_true_eq]
      refine ⟨⟨⟨hc.1, hc.2.1⟩, hc.2.2⟩, ?_⟩
      rw [hv]
    | Null => rfl
    | Bool v => rfl
    | F64 v => rfl
    | Str v => rfl
    | Bytes v => rfl
    | Date v => rfl
    | Time v => rfl
    | DateTime v => rfl
    | DateTimeOffset v o => rfl
    | Decimal v p s => rfl
    | Guid v => rfl
  · rw [if_neg hc]

theorem find?_append_chars {p : (List ColumnInfo × PyRowWriter) → Bool} :
    ∀ l₁ l₂ : List (List ColumnInfo × PyRowWriter),
    (l₁ ++ l₂).find? p =
      (match l₁.find? p with
       | some x => some x
       | none => l₂.find? p) := by
  intro l₁
  induction l₁ with
  | nil => intro l₂; rfl
  | cons t rest ih =>
    intro l₂
    by_cases hp : p t = true
    · rw [List.cons_append, List.find?_cons_of_pos _ hp, List.find?_cons_of_pos _ hp]
    · rw [List.cons_append, List.find?_cons_of_neg _ hp, List.find?_cons_of_neg _ hp, ih]

theorem foldl_rcScan : ∀ (sets : List (List ColumnInfo × PyRowWriter)) (rc0 : ℤ),
    sets.foldl rcScanStep rc0 =
      (match sets.reverse.find? rcMatchB with
       | some t => rcValue t
       | none => rc0) := by
  intro sets
  induction sets with
  | nil => intro rc0; rfl
  | cons t rest ih =>
    intro rc0
    show rest.foldl rcScanStep (rcScanStep rc0 t) = _
    rw [ih (rcScanStep rc0 t)]
    have hrev : (t :: rest).reverse = rest.reverse ++ [t] := by simp
    rw [hrev, find?_append_chars rest.reverse [t]]
    cases hf : rest.reverse.find? rcMatchB with
    | some u => rfl
    | none =>
      by_cases hp : rcMatchB t = true
      · rw [List.find?_cons_of_pos _ hp]
        show rcScanStep rc0 t = rcValue t
        exact rcScanStep_pos rc0 t hp
      · rw [List.find?_cons_of_neg _ hp]
        show rcScanStep rc0 t = rc0
        exact rcScanStep_neg rc0 t hp

/-- Claim C2 (amended): execute detects DML by testing whether the trimmed,
case-normalized text begins with INSERT, UPDATE, DELETE or MERGE each
followed by a space; for DML it appends the rowcount-echo statement and
reports n row(s) affected, where n is the integer first cell of the last
finalized table having exactly one column named __rc__ and at least one row
with an integer first cell, and zero when no such table exists; for non-DML
text nothing is appended and the fixed message OK is returned. -/
theorem claimC2_execute (batch : List Char → List (List ColumnInfo × PyRowWriter))
    (sql : List Char) :
    do_execute batch sql = do_execute_spec batch sql := by
  unfold do_execute do_execute_spec
  by_cases h : needs_rowcount sql = true
  · rw [if_pos h, if_pos h]
    unfold batchSql
    rw [if_pos h, foldl_rcScan]
    rfl
  · rw [if_neg h, if_neg h]

end Hiss
